import Mathlib

/-!
Shallow embedding of the core of the bf-crunch-rs repository
(src/port/src: util.rs, math.rs, node.rs, path.rs, solver.rs, cruncher.rs),
together with theorems settling the specification claims about it.

Machine integers are modelled as follows: u8 tape cells and goal bytes are
Nat values in [0, 256) with explicit mod-256 wrapping where the Rust wraps;
i32 quantities (costs, pointers, budgets) are Int; usize indices are Nat,
and the Rust cast i32-as-usize is modelled by toUsize (sign-extension
modulo 2^64, so a negative pointer becomes a huge index that fails every
bounds check exactly as in the source).

Rust for/while loops with break are modelled by explicit folds with an
early-exit flag (foldB, foldBr below); the iteration lists are always at
least as long as the number of iterations the loop guard permits, so the
fold is semantically the loop.  Recursion in Solver::exhaustive is modelled
with an explicit fuel parameter; running out of fuel yields the sentinel
none, and the termination claim C8 is the statement that fuel
goal.length - start + 1 never reaches the sentinel.
-/

namespace BfCrunch

/-- Rust i32-as-usize cast: sign-extend to 64 bits and reinterpret.
Negative values become huge indices that fail every bounds check. -/
def toUsize (i : Int) : Nat := (i % (2 : Int) ^ 64).toNat

/-- util.rs abs_diff: raw byte distance as a signed integer, |a - b| for
bytes a, b (not the wrap-minimum distance). -/
def absDiff (a b : Nat) : Int := |(a : Int) - (b : Int)|

/-- util.rs add_byte: value.wrapping_add(delta as u8), i.e. (v + d) mod 256. -/
def addByte (v : Nat) (d : Int) : Nat := (((v : Int) + d) % 256).toNat

/-- util.rs negate_byte: (-(v as i32)) as u8, i.e. (-v) mod 256. -/
def negateByte (v : Nat) : Nat := ((-(v : Int)) % 256).toNat

/-- The list of integers a, a+1, ..., b-1 (the Rust iterator a..b). -/
def intRange (a b : Int) : List Int :=
  (List.range (b - a).toNat).map (fun (t : Nat) => a + (t : Int))

/-- Fold with early exit in the Option monad: the step function returns
none to abort the whole fold (used for fuel exhaustion propagating out of
a loop body), (s, false) to break out of the loop keeping state s, and
(s, true) to continue with state s. -/
def foldB (f : σ → ι → Option (σ × Bool)) : List ι → σ → Option σ
  | [], s => some s
  | x :: xs, s =>
    match f s x with
    | none => none
    | some (s', true) => foldB f xs s'
    | some (s', false) => some s'

/-- Pure fold with early exit: the step function returns (s, false) to
break out of the loop keeping state s, and (s, true) to continue. -/
def foldBr (f : σ → ι → σ × Bool) : List ι → σ → σ
  | [], s => s
  | x :: xs, s =>
    match f s x with
    | (s', true) => foldBr f xs s'
    | (s', false) => s'

/-- math.rs lower_bound inner loop.  The Rust while loop terminates because
(end, end - mid) decreases lexicographically; here it is given explicit
fuel, and lowerBound supplies fuel (len+1)^2 which exceeds the value of the
potential e*(len+1) + (e-m) + 1 that strictly decreases at every step
(proved in lbLoop_spec below), so the fuel never runs out. -/
def lbLoop (arr : List Int) (value : Int) : Nat → Nat → Nat → Nat → Nat
  | 0, _, _, m => m
  | fuel + 1, s, e, m =>
    if m = e then m
    else if arr.getD m 0 < value then
      lbLoop arr value fuel m e ((m + e + 1) / 2)
    else
      lbLoop arr value fuel s m ((s + m) / 2)

/-- math.rs lower_bound: first index whose element is not less than value. -/
def lowerBound (arr : List Int) (value : Int) : Nat :=
  if arr.isEmpty then 0
  else lbLoop arr value ((arr.length + 1) * (arr.length + 1)) 0 arr.length (arr.length / 2)

/-- cruncher.rs MODINV256: precomputed modular inverses modulo 256 for the
odd values 1, 3, ..., 39 (entry 0 at every even index). -/
def MODINV256 : List Int :=
  [0, 1, 0, 171, 0, 205, 0, 183, 0, 57, 0, 163, 0, 197, 0, 239, 0, 241, 0, 27, 0, 61, 0, 167, 0,
   41, 0, 19, 0, 53, 0, 223, 0, 225, 0, 139, 0, 173, 0, 151]

/-- cruncher.rs s_list_gen inner dfs.  The recursion decreases len by at
least |i| + 1 >= 1 at each level and stops as soon as len < 1, so depth is
at most len + 1; sListGen supplies that much fuel (out of fuel yields no
sequences, which sListGen never triggers). -/
def sDfs : Nat → Int → Bool → List (List Int)
  | 0, _, _ => []
  | fuel + 1, len, first =>
    if len < 1 then [[]]
    else
      (intRange (-len) (len + 1)).flatMap (fun i =>
        if (first && i == 0) || |i| == len - 1 then []
        else (sDfs fuel (len - |i| - 1) false).map (fun rest => i :: rest))

/-- cruncher.rs s_list_gen: all s-lists generated for a given length budget. -/
def sListGen (len : Int) : List (List Int) := sDfs (len.toNat + 1) len true

/-- Cost of an s-list as the spec counts it: the sum of |v| + 1 per element. -/
def sCost (l : List Int) : Int := (l.map (fun v => |v| + 1)).sum

/-- node.rs Node: a pointer position with an accumulated cost and a rolling
flag.  Node equality in the source compares pointers only; pathContains
below mirrors that. -/
structure BNode where
  pointer : Int
  cost : Int
  rolling : Bool
deriving DecidableEq, Repr

/-- path.rs Path::cost: the sum of the node costs. -/
def pathCost (p : List BNode) : Int := (p.map (fun n => n.cost)).sum

/-- path.rs Path::contains, with node.rs PartialEq comparing pointers only. -/
def pathContains (p : List BNode) (n : BNode) : Bool :=
  p.any (fun m => m.pointer == n.pointer)

/-- solver.rs Solver: the full mutable solver state. -/
structure SolverSt where
  goal : List Nat
  tape : List Nat
  minCost : Int
  pointer : Int
  maxPointer : Int
  maxNodeCost : Int
  uniqueCells : Bool
  zeros : List Int
deriving DecidableEq, Repr

/-- solver.rs Solver::recompute_zeros body (also used by Solver::new): the
ascending list of indices 0..=max_pointer at which the tape holds zero,
skipping indices at or past the tape end. -/
def zerosOf (tape : List Nat) (maxPointer : Int) : List Int :=
  (intRange 0 (maxPointer + 1)).filter (fun i =>
    decide (toUsize i < tape.length) && (tape.getD (toUsize i) 0 == 0))

/-- solver.rs Solver::recompute_zeros. -/
def recomputeZeros (st : SolverSt) : SolverSt :=
  { st with zeros := zerosOf st.tape st.maxPointer }

/-- solver.rs Solver::new.  Note (goal.len() as i32).saturating_sub(1) is
goal.len - 1 with no saturation in the i32 range, hence -1 for the empty
goal. -/
def SolverSt.new (goal : List Nat) (tape : List Nat) (pointer maxPointer maxNodeCost : Int)
    (uniqueCells : Bool) : SolverSt :=
  let repeats : Int := ((goal.zip goal.tail).filter (fun pr => pr.1 == pr.2)).length
  { goal := goal, tape := tape,
    minCost := ((goal.length : Int) - 1) * 2 - repeats,
    pointer := pointer, maxPointer := maxPointer, maxNodeCost := maxNodeCost,
    uniqueCells := uniqueCells, zeros := zerosOf tape maxPointer }

/-- Decidable form of the claim C2 invariant at one recursion entry: the
zeros cache equals the ascending list of zero indices over [0, max_pointer]. -/
def zerosConsistentB (st : SolverSt) : Bool := st.zeros == zerosOf st.tape st.maxPointer

/-- Result of one exhaustive call: the returned path (if any), the solver
state at return, and a monitor flag recording whether the zero-cache
consistency invariant of claim C2 held at this entry and at every nested
entry.  The monitor is instrumentation for stating C2; the first two
components are the faithful embedding of the source. -/
abbrev ExRes := Option (List BNode) × SolverSt × Bool

/-- Shape of the recursive call of Solver::exhaustive. -/
abbrev RecT := SolverSt → Int → Nat → Int → Int → Option ExRes

/-- Accumulator threaded through the move classes of one exhaustive frame:
the solver state, the current best path (min_path), and the conjunction of
the monitor flags of the child calls made so far. -/
structure SAcc where
  st : SolverSt
  minPath : Option (List BNode)
  ok : Bool
deriving Repr

/-- solver.rs: the admissible relaxation credit for goal position s (0 at
the last goal byte, 1 when the next byte repeats, else 2). -/
def nextCostAt (goal : List Nat) (s : Nat) : Int :=
  if s + 1 == goal.length then 0
  else if goal.getD s 0 == goal.getD (s + 1) 0 then 1
  else 2

/-- solver.rs: the state handed to the recursive call by the repeated
candidate block: recompute the zero cache if the target cell holds zero,
then write goal[start] to the target. -/
def tcChild (acc : SAcc) (start : Nat) (target : Int) : SolverSt :=
  let idx := toUsize target
  let st1 := if acc.st.tape.getD idx 0 == 0 then recomputeZeros acc.st else acc.st
  { st1 with tape := st1.tape.set idx (acc.st.goal.getD start 0) }

/-- solver.rs: the tail of the repeated candidate block after the recursive
call returns: restore the saved cell value and the saved zero cache
unconditionally, then accept the subpath if it strictly improves min_path
and passes the unique-cells test. -/
def tcAfter (acc : SAcc) (target ncost : Int) (res : ExRes) : SAcc :=
  let idx := toUsize target
  let node : BNode := ⟨target, ncost, false⟩
  let st3 := res.2.1
  let st4 := { st3 with tape := st3.tape.set idx (acc.st.tape.getD idx 0), zeros := acc.st.zeros }
  let acc' : SAcc := ⟨st4, acc.minPath, acc.ok && res.2.2⟩
  match res.1 with
  | none => acc'
  | some sub =>
    let better := match acc.minPath with
      | some p => decide (pathCost sub + ncost < pathCost p)
      | none => true
    let uniqueOk := !st4.uniqueCells || !pathContains sub node
    if better && uniqueOk then { acc' with minPath := some (node :: sub) } else acc'

/-- solver.rs: the candidate block that is repeated verbatim in the stay,
move-left, move-right and the four zip move classes (e.g. lines 83-113):
save the target cell and the zero cache, recompute the cache if the target
holds zero, write goal[start] to the target, recurse, restore
unconditionally, and compare against min_path. -/
def tryCand (rec : RecT) (acc : SAcc) (cost : Int) (start : Nat)
    (maxCost nextCost : Int) (target ncost : Int) : Option SAcc :=
  (rec (tcChild acc start target) (cost + ncost) (start + 1) target
    (maxCost + nextCost)).map (tcAfter acc target ncost)

/-- solver.rs lines 79-114: stay on the same pointer. -/
def stayMove (rec : RecT) (acc : SAcc) (cost : Int) (start : Nat)
    (maxCost nextCost iMax pointer : Int) : Option SAcc :=
  if 0 ≤ pointer then
    let idx := toUsize pointer
    if idx < acc.st.tape.length then
      let ncost := absDiff (acc.st.goal.getD start 0) (acc.st.tape.getD idx 0) + 1
      if ncost ≤ iMax then tryCand rec acc cost start maxCost nextCost pointer ncost
      else some acc
    else some acc
  else some acc

/-- solver.rs lines 116-158: move left by i cells, for i in 1..i_max. -/
def leftMove (rec : RecT) (acc : SAcc) (cost : Int) (start : Nat)
    (maxCost nextCost iMax pointer : Int) : Option SAcc :=
  if 0 < pointer then
    foldB (fun a i =>
      if pointer < i then some (a, false)
      else
        let target := pointer - i
        let idx := toUsize target
        if a.st.tape.length ≤ idx then some (a, false)
        else
          let ncost := absDiff (a.st.goal.getD start 0) (a.st.tape.getD idx 0) + i + 1
          if ncost ≤ iMax then
            (tryCand rec a cost start maxCost nextCost target ncost).map (fun x => (x, true))
          else some (a, true)) (intRange 1 iMax) acc
  else some acc

/-- solver.rs lines 160-202: move right by i cells, for i in 1..i_max. -/
def rightMove (rec : RecT) (acc : SAcc) (cost : Int) (start : Nat)
    (maxCost nextCost iMax pointer : Int) : Option SAcc :=
  if pointer < acc.st.maxPointer then
    foldB (fun a i =>
      if a.st.maxPointer < pointer + i then some (a, false)
      else
        let target := pointer + i
        let idx := toUsize target
        if a.st.tape.length ≤ idx then some (a, false)
        else
          let ncost := absDiff (a.st.goal.getD start 0) (a.st.tape.getD idx 0) + i + 1
          if ncost ≤ iMax then
            (tryCand rec a cost start maxCost nextCost target ncost).map (fun x => (x, true))
          else some (a, true)) (intRange 1 iMax) acc
  else some acc

/-- solver.rs lines 222-267: zip left, then step further left from the
previous zero. -/
def zipFarLeft (rec : RecT) (cost : Int) (start : Nat)
    (maxCost nextCost iMax zcost prevZero : Int) (a : SAcc) (i : Int) : Option (SAcc × Bool) :=
  if iMax - 3 ≤ i then some (a, false)
  else if prevZero < i then some (a, false)
  else
    let target := prevZero - i
    if target < 0 then some (a, false)
    else
      let idx := toUsize target
      if a.st.tape.length ≤ idx then some (a, false)
      else
        let ncost := absDiff (a.st.goal.getD start 0) (a.st.tape.getD idx 0) + i + 1 + zcost
        if ncost ≤ iMax then
          (tryCand rec a cost start maxCost nextCost target ncost).map (fun x => (x, true))
        else some (a, true)

/-- solver.rs lines 269-316: zip left, then step right from the previous
zero back towards the pointer (at most (pointer - prev_zero - 3) >> 1
steps; the i32 arithmetic shift is floor division by 2). -/
def zipNearLeft (rec : RecT) (cost : Int) (start : Nat)
    (maxCost nextCost iMax zcost pointer prevZero : Int) (a : SAcc) (i : Int) :
    Option (SAcc × Bool) :=
  if iMax - 3 ≤ i then some (a, false)
  else
    let limit := Int.fdiv (pointer - prevZero - 3) 2
    if limit < i then some (a, false)
    else
      let target := prevZero + i
      if a.st.maxPointer < target then some (a, false)
      else
        let idx := toUsize target
        if a.st.tape.length ≤ idx then some (a, false)
        else
          let ncost := absDiff (a.st.goal.getD start 0) (a.st.tape.getD idx 0) + i + 1 + zcost
          if ncost ≤ iMax then
            (tryCand rec a cost start maxCost nextCost target ncost).map (fun x => (x, true))
          else some (a, true)

/-- solver.rs roll classes: the block of writes before the recursive call
(tape[node.pointer] = goal[start + offset] over the enumerated block). -/
def rollWrite (st : SolverSt) (start : Nat) (subpath : List BNode) : List Nat :=
  subpath.enum.foldl (fun t (ob : Nat × BNode) =>
    t.set (toUsize ob.2.pointer) (st.goal.getD (start + ob.1) 0)) st.tape

/-- solver.rs roll classes: after the recursive call returns, write the
saved cell values back over the block in order, and accept the combined
path if it strictly improves min_path (the roll classes perform no
unique-cells test). -/
def rollAfter (a : SAcc) (subpath : List BNode) (saved : List Nat) (res : ExRes) : SAcc :=
  let restored := (subpath.zip saved).foldl (fun t (nv : BNode × Nat) =>
      t.set (toUsize nv.1.pointer) nv.2) res.2.1.tape
  let st4 := { res.2.1 with tape := restored }
  let newMin := match res.1 with
    | some sub2 =>
      let better := match a.minPath with
        | some p => decide (pathCost subpath + pathCost sub2 < pathCost p)
        | none => true
      if better then some (subpath ++ sub2) else a.minPath
    | none => a.minPath
  ⟨st4, newMin, a.ok && res.2.2⟩

/-- solver.rs lines 328-399: one iteration of the roll-left while loop.
State: (accumulator, pj, run_len).  The source indexes the tape directly
when building the block; out-of-range indices are caught by the explicit
length checks (idx >= tape.len), mirrored here. -/
def rollStepLeft (rec : RecT) (cost : Int) (start : Nat)
    (maxCost nextCost iMax pointer prevZero : Int)
    (s : SAcc × Int × Int) (_u : Nat) : Option ((SAcc × Int × Int) × Bool) :=
  let a := s.1
  let pj := s.2.1
  let rl := s.2.2
  let glen : Int := a.st.goal.length
  if 4 ≤ rl ∧ rl ≤ glen - start then
    let target := pointer - pj
    let idx := toUsize target
    if a.st.tape.length ≤ idx then some (s, false)
    else
      let ncost := absDiff (a.st.goal.getD start 0) (a.st.tape.getD idx 0) + |pj| + 1
      if ncost ≤ iMax then
        let built := foldBr (fun (b : List BNode × Int × Bool) i =>
            let cell := pointer - pj - i
            if cell < 0 then ((b.1, b.2.1, false), false)
            else
              let cidx := toUsize cell
              if a.st.tape.length ≤ cidx then ((b.1, b.2.1, false), false)
              else
                let delta := absDiff (a.st.goal.getD (start + i.toNat) 0)
                  (a.st.tape.getD cidx 0)
                if iMax < delta then ((b.1, b.2.1, false), false)
                else ((b.1 ++ [⟨cell, delta, true⟩],
                       b.2.1 + nextCostAt a.st.goal (start + i.toNat), b.2.2), true))
          (intRange 1 rl) ([⟨target, ncost + 3, true⟩], nextCost, true)
        let subpath := built.1
        let dcost := built.2.1
        let valid := built.2.2
        if valid ∧ (subpath.length : Int) = rl then
          let saved := subpath.map (fun n => a.st.tape.getD (toUsize n.pointer) 0)
          (rec { a.st with tape := rollWrite a.st start subpath } (cost + pathCost subpath)
              (start + rl.toNat) prevZero (maxCost + dcost)).map
            (fun res => ((rollAfter a subpath saved res, pj + 1, rl - 1), true))
        else some ((a, pj + 1, rl - 1), true)
      else some ((a, pj + 1, rl - 1), true)
  else some (s, false)

/-- solver.rs lines 318-399: the roll-left class.  The extension while loop
decreases pj while pointer - pj < max_pointer keeps holding, so it runs at
most (max_pointer - pointer) + pj iterations; the main while loop decreases
run_len towards the bound 4, so it runs at most run_len iterations.  The
iteration lists below are at least that long. -/
def rollLeft (rec : RecT) (acc : SAcc) (cost : Int) (start : Nat)
    (maxCost nextCost iMax pointer pj0 prevZero : Int) : Option SAcc :=
  let glen : Int := acc.st.goal.length
  let runLen0 := pointer - pj0 - prevZero
  let ext := foldBr (fun (s : Int × Int) (_u : Nat) =>
      if s.1 < 1 ∧ pointer - s.1 < acc.st.maxPointer
          ∧ acc.st.tape.getD (toUsize (pointer - s.1 + 1)) 0 ≠ 0
          ∧ s.2 < glen - start then ((s.1 - 1, s.2 + 1), true)
      else (s, false))
    (List.range ((acc.st.maxPointer - pointer).toNat + pj0.toNat + 1)) (pj0, runLen0)
  (foldB (rollStepLeft rec cost start maxCost nextCost iMax pointer prevZero)
      (List.range ext.2.toNat) (acc, ext.1, ext.2)).map (fun s => s.1)

/-- solver.rs lines 204-402: the zip-to-previous-zero classes.  First scan
the run of zeros at and left of the pointer (at most pointer + 1 steps),
then look up the previous cached zero strictly left of the first nonzero
cell, and run the far loop, the near loop and the roll-left class. -/
def zipLeft (rec : RecT) (acc : SAcc) (cost : Int) (start : Nat)
    (maxCost nextCost iMax pointer : Int) : Option SAcc :=
  if 0 < pointer then
    let pj0 := foldBr (fun (pj : Int) (_u : Nat) =>
        if pj ≤ pointer then
          let idx := toUsize (pointer - pj)
          if acc.st.tape.length ≤ idx ∨ acc.st.tape.getD idx 0 ≠ 0 then (pj, false)
          else (pj + 1, true)
        else (pj, false)) (List.range (pointer.toNat + 1)) (0 : Int)
    if pj0 ≤ pointer then
      let zcost := 3 + pj0
      let search := pointer - pj0
      let pzIdx : Int := (lowerBound acc.st.zeros search : Int) - 1
      if 0 ≤ pzIdx then
        let prevZero := acc.st.zeros.getD pzIdx.toNat 0
        (foldB (zipFarLeft rec cost start maxCost nextCost iMax zcost prevZero)
            (intRange 1 iMax) acc).bind (fun a1 =>
        (foldB (zipNearLeft rec cost start maxCost nextCost iMax zcost pointer prevZero)
            (intRange 1 iMax) a1).bind (fun a2 =>
        rollLeft rec a2 cost start maxCost nextCost iMax pointer pj0 prevZero))
      else some acc
    else some acc
  else some acc

/-- solver.rs lines 420-463: zip right, then step further right from the
next zero. -/
def zipFarRight (rec : RecT) (cost : Int) (start : Nat)
    (maxCost nextCost iMax zcost nextZero : Int) (a : SAcc) (i : Int) : Option (SAcc × Bool) :=
  if iMax - 3 ≤ i then some (a, false)
  else if a.st.maxPointer < nextZero + i then some (a, false)
  else
    let target := nextZero + i
    let idx := toUsize target
    if a.st.tape.length ≤ idx then some (a, false)
    else
      let ncost := absDiff (a.st.goal.getD start 0) (a.st.tape.getD idx 0) + i + 1 + zcost
      if ncost ≤ iMax then
        (tryCand rec a cost start maxCost nextCost target ncost).map (fun x => (x, true))
      else some (a, true)

/-- solver.rs lines 465-512: zip right, then step left from the next zero
back towards the pointer. -/
def zipNearRight (rec : RecT) (cost : Int) (start : Nat)
    (maxCost nextCost iMax zcost pointer nextZero : Int) (a : SAcc) (i : Int) :
    Option (SAcc × Bool) :=
  if iMax - 3 ≤ i then some (a, false)
  else
    let limit := Int.fdiv (nextZero - pointer - 3) 2
    if limit < i then some (a, false)
    else
      let target := nextZero - i
      if target < 0 then some (a, false)
      else
        let idx := toUsize target
        if a.st.tape.length ≤ idx then some (a, false)
        else
          let ncost := absDiff (a.st.goal.getD start 0) (a.st.tape.getD idx 0) + i + 1 + zcost
          if ncost ≤ iMax then
            (tryCand rec a cost start maxCost nextCost target ncost).map (fun x => (x, true))
          else some (a, true)

/-- solver.rs lines 524-595: one iteration of the roll-right while loop.
State: (accumulator, nj, run_len). -/
def rollStepRight (rec : RecT) (cost : Int) (start : Nat)
    (maxCost nextCost iMax pointer nextZero : Int)
    (s : SAcc × Int × Int) (_u : Nat) : Option ((SAcc × Int × Int) × Bool) :=
  let a := s.1
  let nj := s.2.1
  let rl := s.2.2
  let glen : Int := a.st.goal.length
  if 4 ≤ rl ∧ rl ≤ glen - start then
    let target := pointer + nj
    let idx := toUsize target
    if a.st.tape.length ≤ idx then some (s, false)
    else
      let ncost := absDiff (a.st.goal.getD start 0) (a.st.tape.getD idx 0) + |nj| + 1
      if ncost ≤ iMax then
        let built := foldBr (fun (b : List BNode × Int × Bool) i =>
            let cell := pointer + nj + i
            if a.st.maxPointer < cell then ((b.1, b.2.1, false), false)
            else
              let cidx := toUsize cell
              if a.st.tape.length ≤ cidx then ((b.1, b.2.1, false), false)
              else
                let delta := absDiff (a.st.goal.getD (start + i.toNat) 0)
                  (a.st.tape.getD cidx 0)
                if iMax < delta then ((b.1, b.2.1, false), false)
                else ((b.1 ++ [⟨cell, delta, true⟩],
                       b.2.1 + nextCostAt a.st.goal (start + i.toNat), b.2.2), true))
          (intRange 1 rl) ([⟨target, ncost + 3, true⟩], nextCost, true)
        let subpath := built.1
        let dcost := built.2.1
        let valid := built.2.2
        if valid ∧ (subpath.length : Int) = rl then
          let saved := subpath.map (fun n => a.st.tape.getD (toUsize n.pointer) 0)
          (rec { a.st with tape := rollWrite a.st start subpath } (cost + pathCost subpath)
              (start + rl.toNat) nextZero (maxCost + dcost)).map
            (fun res => ((rollAfter a subpath saved res, nj + 1, rl - 1), true))
        else some ((a, nj + 1, rl - 1), true)
      else some ((a, nj + 1, rl - 1), true)
  else some (s, false)

/-- solver.rs lines 514-595: the roll-right class.  The extension loop
decreases nj while pointer + nj > 0 keeps holding, so it runs at most
pointer + nj iterations. -/
def rollRight (rec : RecT) (acc : SAcc) (cost : Int) (start : Nat)
    (maxCost nextCost iMax pointer nj0 nextZero : Int) : Option SAcc :=
  let glen : Int := acc.st.goal.length
  let runLen0 := nextZero - pointer - nj0
  let ext := foldBr (fun (s : Int × Int) (_u : Nat) =>
      if s.1 < 1 ∧ 0 < pointer + s.1
          ∧ acc.st.tape.getD (toUsize (pointer + s.1 - 1)) 0 ≠ 0
          ∧ s.2 < glen - start then ((s.1 - 1, s.2 + 1), true)
      else (s, false))
    (List.range (pointer.toNat + nj0.toNat + 1)) (nj0, runLen0)
  (foldB (rollStepRight rec cost start maxCost nextCost iMax pointer nextZero)
      (List.range ext.2.toNat) (acc, ext.1, ext.2)).map (fun s => s.1)

/-- solver.rs lines 404-598: the zip-to-next-zero classes. -/
def zipRight (rec : RecT) (acc : SAcc) (cost : Int) (start : Nat)
    (maxCost nextCost iMax pointer : Int) : Option SAcc :=
  if pointer ≤ acc.st.maxPointer then
    let nj0 := foldBr (fun (nj : Int) (_u : Nat) =>
        if pointer + nj ≤ acc.st.maxPointer then
          let idx := toUsize (pointer + nj)
          if acc.st.tape.length ≤ idx ∨ acc.st.tape.getD idx 0 ≠ 0 then (nj, false)
          else (nj + 1, true)
        else (nj, false))
      (List.range ((acc.st.maxPointer - pointer).toNat + 1)) (0 : Int)
    if pointer + nj0 ≤ acc.st.maxPointer then
      let zcost := 3 + nj0
      let nzIdx := lowerBound acc.st.zeros (pointer + nj0)
      if nzIdx < acc.st.zeros.length then
        let nextZero := acc.st.zeros.getD nzIdx 0
        (foldB (zipFarRight rec cost start maxCost nextCost iMax zcost nextZero)
            (intRange 1 iMax) acc).bind (fun a1 =>
        (foldB (zipNearRight rec cost start maxCost nextCost iMax zcost pointer nextZero)
            (intRange 1 iMax) a1).bind (fun a2 =>
        rollRight rec a2 cost start maxCost nextCost iMax pointer nj0 nextZero))
      else some acc
    else some acc
  else some acc

/-- solver.rs Solver::exhaustive, with explicit fuel bounding the recursion
depth (none = fuel ran out; claim C8 shows fuel goal.len - start + 1 always
suffices).  The Bool result component is the claim C2 monitor: it is true
iff the zero-cache consistency invariant held at this entry and at every
nested recursion entry. -/
def exhaustiveF : Nat → RecT
  | 0, _, _, _, _, _ => none
  | fuel + 1, st, cost, start, pointer, maxCost =>
    let entryOk := zerosConsistentB st
    if start = st.goal.length then some (some [], st, entryOk)
    else
      let nextCost := nextCostAt st.goal start
      let iMax := min (maxCost - cost) st.maxNodeCost
      if iMax ≤ 0 then some (none, st, entryOk)
      else
        (stayMove (fun a b c d e => exhaustiveF fuel a b c d e) ⟨st, none, true⟩
            cost start maxCost nextCost iMax pointer).bind (fun a1 =>
        (leftMove (fun a b c d e => exhaustiveF fuel a b c d e) a1
            cost start maxCost nextCost iMax pointer).bind (fun a2 =>
        (rightMove (fun a b c d e => exhaustiveF fuel a b c d e) a2
            cost start maxCost nextCost iMax pointer).bind (fun a3 =>
        (zipLeft (fun a b c d e => exhaustiveF fuel a b c d e) a3
            cost start maxCost nextCost iMax pointer).bind (fun a4 =>
        (zipRight (fun a b c d e => exhaustiveF fuel a b c d e) a4
            cost start maxCost nextCost iMax pointer).bind (fun a5 =>
        some (a5.minPath, a5.st, entryOk && a5.ok))))))

/-- solver.rs Solver::solve.  Fuel goal.len + 1 is always sufficient by
claim C8, so the none fallback is dead code. -/
def SolverSt.solve (st : SolverSt) (maxCost : Int) : Option (List BNode) :=
  match exhaustiveF (st.goal.length + 1) st 0 0 st.pointer (maxCost - st.minCost) with
  | some (r, _, _) => r
  | none => none

/-- Lowest set bit of a natural number as a power of two (fuel-bounded
structural recursion so that it kernel-reduces; 64 bits of fuel cover the
whole i32 range). -/
def lowBitAux : Nat → Nat → Nat
  | 0, _ => 1
  | fuel + 1, n => if n % 2 = 1 then 1 else 2 * lowBitAux fuel (n / 2)

/-- The Rust expression j1 & -j1 for a nonzero i32: the lowest set bit of
|j1| as a positive power of two (two's-complement identity; Int.land with a
negative operand does not kernel-reduce, so the identity form is used). -/
def lowBit (j : Int) : Int := (lowBitAux 64 j.natAbs : Nat)

/-- cruncher.rs fill_tape: one iteration of the outer initialization loop.
State: (pntr, tape).  none models the Rust return None (tuple rejected),
(s, false) models both loop exits (break on a zero cell, or the while
condition pntr < stop turning false). -/
def fillStep (c : List Int) (k0 k1 j0 h mask : Int) (shift : Nat) (m stop : Int)
    (s : Int × List Nat) (_u : Nat) : Option ((Int × List Nat) × Bool) :=
  let pntr := s.1
  let tape := s.2
  if pntr < stop then
    let idx := toUsize pntr
    if tape.length ≤ idx then none
    else if tape.getD idx 0 = 0 then some (s, false)
    else
      let v1 := addByte (tape.getD idx 0) k0
      let tape1 := tape.set idx v1
      (if v1 ≠ 0 then
        if Int.land (v1 : Int) mask ≠ 0 then none
        else
          let tmp : Int := ((v1 >>> shift : Nat) : Int) * m
          (c.enum.foldlM (fun t (oc : Nat × Int) =>
              let tIdx := pntr + (oc.1 : Int) + 1
              if tIdx < 0 then none
              else if t.length ≤ toUsize tIdx then none
              else some (t.set (toUsize tIdx)
                (addByte (t.getD (toUsize tIdx) 0) (tmp * oc.2)))) tape1).bind
            (fun tape2 =>
              let leftIdx := pntr - 1
              if leftIdx < 0 then none
              else if tape2.length ≤ toUsize leftIdx then none
              else some (tape2.set (toUsize leftIdx)
                (addByte (tape2.getD (toUsize leftIdx) 0) (tmp * j0))))
      else some tape1).bind (fun tape3 =>
        let tape4 := tape3.set idx ((h % 256).toNat)
        let pntr1 := pntr + 1
        let idx1 := toUsize pntr1
        if tape4.length ≤ idx1 then none
        else some ((pntr1, tape4.set idx1 (addByte (tape4.getD idx1 0) k1)), true))
  else some (s, false)

/-- cruncher.rs Cruncher::fill_tape.  The outer while loop advances pntr by
exactly one per iteration from 2 towards stop, so it runs at most
(stop - 2) iterations; the iteration list is that long, and a fold that
exhausts it leaves pntr = stop, which the final pntr < stop test rejects
exactly as the source does.  The shift-extraction loop runs
trailing-zeros(j1) times, at most 63 for any value in i32 range. -/
def fillTape (maxTape : Int) (s c : List Int) (k0 k1 j0 j1 h : Int) :
    Option (Int × List Nat) :=
  let tlen := max (maxTape + (s.length : Int)).toNat (maxTape + 2).toNat
  let tape0 := List.replicate tlen 0
  (s.enum.foldlM (fun t (iv : Nat × Int) =>
      if t.length ≤ iv.1 + 2 then none
      else some (t.set (iv.1 + 2) ((iv.2 % 256).toNat))) tape0).bind (fun tape1 =>
    if j1 = 0 then none
    else
      let lsb0 := lowBit j1
      let mask := lsb0 - 1
      let shift := (foldBr (fun (ls : Int × Nat) (_u : Nat) =>
          if Int.land ls.1 1 = 0 then ((Int.fdiv ls.1 2, ls.2 + 1), true)
          else (ls, false)) (List.range 64) (lsb0, 0)).2
      let invIdx := toUsize (Int.fdiv j1 ((2 : Int) ^ shift))
      if MODINV256.length ≤ invIdx then none
      else
        let m := MODINV256.getD invIdx 0
        if m = 0 then none
        else
          let stop := maxTape - (c.length : Int)
          if stop ≤ 2 then none
          else
            (foldB (fillStep c k0 k1 j0 h mask shift m stop)
                (List.range (stop - 2).toNat) (2, tape1)).bind (fun s1 =>
              if s1.1 < stop then some s1 else none))

/-- cruncher.rs append_repeated: count copies of a character. -/
def repChar (ch : Char) (n : Int) : List Char := List.replicate n.toNat ch

/-- cruncher.rs to_bf_string: the BF program prefix for an initialization
parameter tuple, as a character list. -/
def toBfString (s c : List Int) (k j : Int × Int) (h : Int) : List Char :=
  let sPart := (s.foldl (fun (acc : List Char × Char) sterm =>
      (repChar (if sterm < 0 then '-' else '+') |sterm| ++ [acc.2] ++ acc.1, '<'))
    (([] : List Char), '[')).1
  sPart ++ repChar (if k.1 < 0 then '-' else '+') |k.1|
    ++ ['[', '<'] ++ repChar (if j.1 < 0 then '-' else '+') |j.1|
    ++ ['>'] ++ repChar '-' |j.2|
    ++ (c.flatMap (fun cterm => '>' :: repChar (if cterm < 0 then '-' else '+') |cterm|))
    ++ repChar '<' (c.length : Int) ++ [']']
    ++ repChar (if h < 0 then '-' else '+') |h|
    ++ ['>'] ++ repChar (if k.2 < 0 then '-' else '+') |k.2| ++ [']']

/-- cruncher.rs build_output_sequence: the BF command suffix reproducing a
solver path.  The BTreeMap keyed by tape index is modelled as a function
from Int defaulting to 0 off the initially populated keys, matching
unwrap_or(&0) for absent keys. -/
def buildOutputSequence (path : List BNode) (goal : List Nat) (tape : List Nat)
    (startPointer : Int) : List Char :=
  let step := fun (acc : List Char × Int × (Int → Nat)) (sn : Nat × BNode) =>
    let target := sn.2.pointer
    let pointer := acc.2.1
    let state := acc.2.2
    let seq1 := acc.1 ++
      (if pointer < target then List.replicate (target - pointer).toNat '>'
       else if target < pointer then List.replicate (pointer - target).toNat '<'
       else [])
    let desired := goal.getD sn.1 0
    let current := state target
    if desired ≠ current then
      let increase := (((desired : Int) - (current : Int)) % 256).toNat
      let decrease := (((current : Int) - (desired : Int)) % 256).toNat
      if increase ≤ decrease then
        (seq1 ++ List.replicate increase '+' ++ ['.'], target,
         Function.update state target (addByte current (increase : Int)))
      else
        (seq1 ++ List.replicate decrease '-' ++ ['.'], target,
         Function.update state target ((((current : Int) - (decrease : Int)) % 256).toNat))
    else (seq1 ++ ['.'], target, state)
  (path.enum.foldl step (([] : List Char), startPointer,
      fun i => if 0 ≤ i ∧ i < (tape.length : Int) then tape.getD i.toNat 0 else 0)).1

/-- cruncher.rs Cruncher state, restricted to the fields try_solve and
report_solution read or write (the remaining fields only steer the
generator loops in crunch). -/
structure CruncherSt where
  goal : List Nat
  limit : Int
  rollingLimit : Bool
  uniqueCells : Bool
  maxNodeCost : Int
deriving DecidableEq, Repr

/-- cruncher.rs Cruncher::report_solution: the returned value, i.e. the
character length of the full program (init segment plus reconstructed
tail).  Printing is not modelled; the len and max_pntr parameters are only
used for printing and are omitted. -/
def reportSolutionLen (goal : List Nat) (s c : List Int) (k j : Int × Int) (h : Int)
    (tape : List Nat) (path : List BNode) (pntr : Int) : Int :=
  ((toBfString s c k j h) ++ buildOutputSequence path goal tape pntr).length

/-- cruncher.rs Cruncher::try_solve.  Returns the updated cruncher state
together with the list of reported solutions, each as (path, value
returned by report_solution); the report list is instrumentation for
stating claim C3. -/
def trySolve (cr : CruncherSt) (len pntr maxPntr : Int) (s c : List Int)
    (k j : Int × Int) (h : Int) (tape : List Nat) :
    CruncherSt × List (List BNode × Int) :=
  let solver1 := SolverSt.new cr.goal tape pntr maxPntr cr.maxNodeCost cr.uniqueCells
  let solution1 := solver1.solve (cr.limit - len)
  let step1 := match solution1 with
    | some path1 =>
      let finalLength := reportSolutionLen cr.goal s c k j h tape path1 pntr
      ({ cr with limit := if cr.rollingLimit then finalLength else cr.limit },
       [(path1, finalLength)])
    | none => (cr, ([] : List (List BNode × Int)))
  let cr1 := step1.1
  if 1 < c.length then
    let tape2 := (intRange 1 ((c.length : Int) + 1)).foldl (fun t i =>
        let idx := toUsize (pntr + i)
        if idx < t.length then t.set idx (negateByte (t.getD idx 0)) else t) tape
    let solver2 := SolverSt.new cr.goal tape2 pntr maxPntr cr.maxNodeCost cr.uniqueCells
    match solver2.solve (cr1.limit - len) with
    | some path2 =>
      let better := match solution1 with
        | some p => decide (pathCost path2 < pathCost p)
        | none => true
      if better then
        let sneg := s.map (fun v => -v)
        let kneg := (-k.1, -k.2)
        let jneg := (-j.1, j.2)
        let finalLength := reportSolutionLen cr.goal sneg c kneg jneg (-h) tape2 path2 pntr
        ({ cr1 with limit := if cr1.rollingLimit then finalLength else cr1.limit },
         step1.2 ++ [(path2, finalLength)])
      else (cr1, step1.2)
    | none => (cr1, step1.2)
  else (cr1, step1.2)

/-- Frame property of a recursion function: the returned state equals the
state passed in (claim C1 for Solver::exhaustive). -/
def FrameRec (rec : RecT) : Prop :=
  ∀ st cost start pointer maxCost r st' ok,
    rec st cost start pointer maxCost = some (r, st', ok) → st' = st

/-- A node's pointer lies in the active window [0, max_pointer]. -/
def nodeInBounds (mp : Int) (n : BNode) : Prop := 0 ≤ n.pointer ∧ n.pointer ≤ mp

/-- Every node of a returned path lies in the active window. -/
def pathInBounds (mp : Int) (r : Option (List BNode)) : Prop :=
  ∀ path, r = some path → ∀ n ∈ path, nodeInBounds mp n

/-- Every cached zero index lies in the active window. -/
def zerosInBounds (st : SolverSt) : Prop :=
  ∀ z ∈ st.zeros, 0 ≤ z ∧ z ≤ st.maxPointer

/-- Bounds property of a recursion function: a call made with an in-window
pointer and an in-window zero cache only returns in-window nodes
(claim C7 for Solver::exhaustive). -/
def BoundsRec (rec : RecT) : Prop :=
  ∀ st cost start pointer maxCost r st' ok,
    rec st cost start pointer maxCost = some (r, st', ok) →
    zerosInBounds st → 0 ≤ pointer → pointer ≤ st.maxPointer →
    pathInBounds st.maxPointer r

theorem getD_set_self {α : Type _} (d : α) :
    ∀ (l : List α) (i : Nat) (v : α),
    (l.set i v).getD i d = if i < l.length then v else l.getD i d := by
  intro l
  induction l with
  | nil => intro i v; simp [List.getD]
  | cons a t ih =>
    intro i v
    cases i with
    | zero => simp
    | succ n => simpa using ih n v

theorem getD_set_ne {α : Type _} (d : α) :
    ∀ (l : List α) (i j : Nat) (v : α), i ≠ j →
    (l.set i v).getD j d = l.getD j d := by
  intro l
  induction l with
  | nil => intro i j v _; simp
  | cons a t ih =>
    intro i j v hij
    cases i with
    | zero => cases j with
      | zero => exact absurd rfl hij
      | succ m => simp
    | succ n => cases j with
      | zero => simp
      | succ m => simpa using ih n m v (by omega)

theorem set_getD_cancel {α : Type _} (d : α) :
    ∀ (l : List α) (i : Nat), l.set i (l.getD i d) = l := by
  intro l
  induction l with
  | nil => intro i; simp
  | cons a t ih =>
    intro i
    cases i with
    | zero => simp
    | succ n => simpa using ih n

theorem getD_ext : ∀ (u t : List Nat), u.length = t.length →
    (∀ j, u.getD j 0 = t.getD j 0) → u = t := by
  intro u
  induction u with
  | nil => intro t hlen _; cases t with
    | nil => rfl
    | cons b t => simp at hlen
  | cons a u ih =>
    intro t hlen h
    cases t with
    | nil => simp at hlen
    | cons b t =>
      have h0 := h 0
      simp only [List.getD_cons_zero] at h0
      have ht : u = t := ih t (by simpa using hlen) (fun j => by simpa using h (j + 1))
      rw [h0, ht]

theorem intRange_mem {a b i : Int} : i ∈ intRange a b ↔ a ≤ i ∧ i < b := by
  unfold intRange
  rw [List.mem_map]
  constructor
  · rintro ⟨t, ht, rfl⟩
    rw [List.mem_range] at ht
    omega
  · rintro ⟨h1, h2⟩
    refine ⟨(i - a).toNat, ?_, ?_⟩
    · rw [List.mem_range]
      omega
    · omega

theorem foldB_pres {σ ι : Type _} (f : σ → ι → Option (σ × Bool)) :
    ∀ (l : List ι) (P : σ → Prop),
    (∀ s x s' b, x ∈ l → P s → f s x = some (s', b) → P s') →
    ∀ s s', P s → foldB f l s = some s' → P s' := by
  intro l
  induction l with
  | nil =>
    intro P _ s s' hP h
    simp only [foldB, Option.some.injEq] at h
    exact h ▸ hP
  | cons x xs ih =>
    intro P hf s s' hP h
    simp only [foldB] at h
    cases hfx : f s x with
    | none => rw [hfx] at h; cases h
    | some sb =>
      obtain ⟨s1, b⟩ := sb
      have hP1 : P s1 := hf s x s1 b (List.mem_cons_self x xs) hP hfx
      rw [hfx] at h
      cases b with
      | true => exact ih P (fun s x s' b hx => hf s x s' b (List.mem_cons_of_mem _ hx)) s1 s' hP1 h
      | false =>
        simp only [Option.some.injEq] at h
        exact h ▸ hP1

theorem foldB_some {σ ι : Type _} (f : σ → ι → Option (σ × Bool)) :
    ∀ (l : List ι) (P : σ → Prop),
    (∀ s x, x ∈ l → P s → ∃ s' b, f s x = some (s', b) ∧ P s') →
    ∀ s, P s → ∃ s', foldB f l s = some s' ∧ P s' := by
  intro l
  induction l with
  | nil => intro P _ s hP; exact ⟨s, rfl, hP⟩
  | cons x xs ih =>
    intro P hf s hP
    obtain ⟨s1, b, hfx, hP1⟩ := hf s x (List.mem_cons_self x xs) hP
    cases b with
    | true =>
      obtain ⟨s', h, hP'⟩ :=
        ih P (fun s x hx hPs => hf s x (List.mem_cons_of_mem _ hx) hPs) s1 hP1
      exact ⟨s', by simp only [foldB, hfx]; exact h, hP'⟩
    | false => exact ⟨s1, by simp only [foldB, hfx], hP1⟩

theorem foldBr_pres {σ ι : Type _} (f : σ → ι → σ × Bool) :
    ∀ (l : List ι) (P : σ → Prop),
    (∀ s x, x ∈ l → P s → P (f s x).1) →
    ∀ s, P s → P (foldBr f l s) := by
  intro l
  induction l with
  | nil => intro P _ s hP; exact hP
  | cons x xs ih =>
    intro P hf s hP
    simp only [foldBr]
    cases hfx : f s x with
    | mk s1 b =>
      have hP1 : P s1 := by have := hf s x (List.mem_cons_self x xs) hP; rwa [hfx] at this
      cases b with
      | true => exact ih P (fun s x hx hPs => hf s x (List.mem_cons_of_mem _ hx) hPs) s1 hP1
      | false => exact hP1

theorem foldl_set_length {β : Type _} (ix : β → Nat) (val : β → Nat) :
    ∀ (ps : List β) (t : List Nat),
    (ps.foldl (fun t2 b => t2.set (ix b) (val b)) t).length = t.length := by
  intro ps
  induction ps with
  | nil => intro t; rfl
  | cons p ps ih => intro t; simp [ih]

theorem foldl_set_getD_off {β : Type _} (ix : β → Nat) (val : β → Nat) :
    ∀ (ps : List β) (t : List Nat) (j : Nat), (∀ b ∈ ps, ix b ≠ j) →
    (ps.foldl (fun t2 b => t2.set (ix b) (val b)) t).getD j 0 = t.getD j 0 := by
  intro ps
  induction ps with
  | nil => intro t j _; rfl
  | cons p ps ih =>
    intro t j hj
    simp only [List.foldl_cons]
    rw [ih _ j (fun b hb => hj b (List.mem_cons_of_mem _ hb)),
      getD_set_ne 0 t (ix p) j (val p) (hj p (List.mem_cons_self p ps))]

theorem restore_foldl : ∀ (ns : List BNode) (t u : List Nat),
    u.length = t.length →
    (∀ j, (∀ n ∈ ns, toUsize n.pointer ≠ j) → u.getD j 0 = t.getD j 0) →
    ((ns.zip (ns.map (fun n => t.getD (toUsize n.pointer) 0))).foldl
      (fun t2 nv => t2.set (toUsize nv.1.pointer) nv.2) u) = t := by
  intro ns
  induction ns with
  | nil =>
    intro t u hlen hoff
    exact getD_ext u t hlen (fun j => hoff j (by simp))
  | cons n ns ih =>
    intro t u hlen hoff
    simp only [List.map_cons, List.zip_cons_cons, List.foldl_cons]
    apply ih
    · simpa using hlen
    · intro j hj
      by_cases hji : toUsize n.pointer = j
      · subst hji
        rw [getD_set_self]
        split
        · rfl
        · rename_i hge
          rw [List.getD_eq_default, List.getD_eq_default] <;> omega
      · rw [getD_set_ne 0 u _ j _ hji]
        apply hoff
        intro n' hn'
        rcases List.mem_cons.mp hn' with rfl | hmem
        · exact hji
        · exact hj n' hmem

/-- C9: for every odd q in {1, 3, ..., 39}, the table entry MODINV256[q]
satisfies (q * MODINV256[q]) mod 256 = 1. -/
theorem claim_C9_modinv_table :
    ∀ q : Fin 20,
      (((2 * (q : Nat) + 1 : Nat) : Int) * MODINV256.getD (2 * (q : Nat) + 1) 0) % 256 = 1 := by
  decide

/-- C10: when the goal is the empty byte sequence, Solver::solve returns the
empty Path (cost 0) for every budget value max_cost, including zero and
negative budgets: the base case is reached before any budget check. -/
theorem claim_C10_empty_goal (tape : List Nat) (pointer maxPointer maxNodeCost : Int)
    (uniqueCells : Bool) (maxCost : Int) :
    (SolverSt.new [] tape pointer maxPointer maxNodeCost uniqueCells).solve maxCost = some []
      ∧ pathCost [] = 0 :=
  ⟨rfl, rfl⟩

theorem sDfs_inv : ∀ (fuel : Nat) (len : Int) (first : Bool) (seq : List Int),
    seq ∈ sDfs fuel len first → -1 ≤ len →
    len ≤ sCost seq ∧ sCost seq ≤ len + 1 ∧
      (1 ≤ len → first = true → ∃ v t, seq = v :: t ∧ v ≠ 0) := by
  intro fuel
  induction fuel with
  | zero => intro len first seq hmem; simp [sDfs] at hmem
  | succ fuel ih =>
    intro len first seq hmem hlen
    rw [sDfs] at hmem
    by_cases hl : len < 1
    · rw [if_pos hl] at hmem
      simp only [List.mem_singleton] at hmem
      subst hmem
      refine ⟨by simp [sCost]; omega, by simp [sCost]; omega, fun h1 => absurd h1 (by omega)⟩
    · rw [if_neg hl] at hmem
      rw [List.mem_flatMap] at hmem
      obtain ⟨i, hiR, hseq⟩ := hmem
      have hi := intRange_mem.mp hiR
      by_cases hg : ((first && i == 0) || |i| == len - 1) = true
      · rw [if_pos hg] at hseq
        simp at hseq
      · rw [if_neg hg] at hseq
        rw [List.mem_map] at hseq
        obtain ⟨rest, hrest, rfl⟩ := hseq
        have habs : |i| = i ∨ |i| = -i := abs_choice i
        have habs0 : 0 ≤ |i| := abs_nonneg i
        have hrec := ih (len - |i| - 1) false rest hrest (by omega)
        have hcons : sCost (i :: rest) = |i| + 1 + sCost rest := by
          simp only [sCost, List.map_cons, List.sum_cons]
        simp only [Bool.or_eq_true, Bool.and_eq_true, beq_iff_eq, not_or, not_and] at hg
        refine ⟨by omega, by omega, fun _ hfirst => ⟨i, rest, rfl, ?_⟩⟩
        intro hi0
        exact hg.1 hfirst hi0

/-- C4 counterexample: s_list_gen(1) emits [1], whose cost sum |1| + 1 = 2
differs from len = 1, and s_list_gen(4) emits [1, 0, 1], which contains a
zero element; both refute the claim as stated. -/
theorem claim_C4_counterexample :
    ([1] ∈ sListGen 1 ∧ sCost [1] ≠ 1) ∧
      ([1, 0, 1] ∈ sListGen 4 ∧ ¬ (∀ v ∈ ([1, 0, 1] : List Int), v ≠ 0)) := by
  decide

/-- C4 (amended): for every len >= 1, every sequence emitted by
s_list_gen(len) has a nonzero first element and satisfies
len <= sum of (|v| + 1) <= len + 1; elements after the first position may
be zero, and the sum exceeds len exactly when the final element overshoots
the remaining budget by one. -/
theorem claim_C4_s_list_gen (len : Int) (hlen : 1 ≤ len) (seq : List Int)
    (hseq : seq ∈ sListGen len) :
    (∃ v t, seq = v :: t ∧ v ≠ 0) ∧ len ≤ sCost seq ∧ sCost seq ≤ len + 1 := by
  have hinv := sDfs_inv (len.toNat + 1) len true seq hseq (by omega)
  exact ⟨hinv.2.2 hlen rfl, hinv.1, hinv.2.1⟩

theorem sorted_getD_mono (arr : List Int) (hs : arr.Sorted (· ≤ ·)) {i j : Nat}
    (hij : i ≤ j) (hj : j < arr.length) : arr.getD i 0 ≤ arr.getD j 0 := by
  rcases Nat.eq_or_lt_of_le hij with rfl | hlt
  · exact le_refl _
  · rw [List.getD_eq_getElem arr 0 (by omega), List.getD_eq_getElem arr 0 hj]
    exact List.pairwise_iff_getElem.mp hs i j (by omega) hj hlt

theorem lbLoop_le (arr : List Int) (v : Int) :
    ∀ (fuel s e m : Nat), s ≤ m → m ≤ e → e ≤ arr.length →
    lbLoop arr v fuel s e m ≤ arr.length := by
  intro fuel
  induction fuel with
  | zero => intro s e m _ hme heL; simp only [lbLoop]; omega
  | succ fuel ih =>
    intro s e m hsm hme heL
    rw [lbLoop]
    by_cases hme' : m = e
    · rw [if_pos hme']; omega
    · rw [if_neg hme']
      by_cases hlt : arr.getD m 0 < v
      · rw [if_pos hlt]
        exact ih m e ((m + e + 1) / 2) (by omega) (by omega) heL
      · rw [if_neg hlt]
        exact ih s m ((s + m) / 2) (by omega) (by omega) (by omega)

theorem lbLoop_spec (arr : List Int) (v : Int) (hs : arr.Sorted (· ≤ ·)) :
    ∀ (fuel s e m : Nat),
    e * (arr.length + 1) + (e - m) + 1 ≤ fuel →
    s ≤ m → m ≤ e → e ≤ arr.length →
    (∀ i, i < s → arr.getD i 0 < v) →
    (∀ i, e ≤ i → i < arr.length → ¬ arr.getD i 0 < v) →
    (m = e → ∀ i, i < m → arr.getD i 0 < v) →
    (∀ i, i < lbLoop arr v fuel s e m → arr.getD i 0 < v) ∧
    (∀ i, lbLoop arr v fuel s e m ≤ i → i < arr.length → ¬ arr.getD i 0 < v) ∧
    lbLoop arr v fuel s e m ≤ arr.length := by
  intro fuel
  induction fuel with
  | zero =>
    intro s e m hfuel
    exact absurd hfuel (Nat.not_succ_le_zero _)
  | succ fuel ih =>
    intro s e m hfuel hsm hme heL hQ hK hP
    rw [lbLoop]
    by_cases hme' : m = e
    · rw [if_pos hme']
      exact ⟨hP hme', fun i him hiL => hK i (by omega) hiL, by omega⟩
    · rw [if_neg hme']
      have hmlt : m < e := lt_of_le_of_ne hme hme'
      by_cases hlt : arr.getD m 0 < v
      · rw [if_pos hlt]
        apply ih m e ((m + e + 1) / 2)
        · generalize e * (arr.length + 1) = B at hfuel ⊢
          omega
        · omega
        · omega
        · exact heL
        · intro i him
          exact lt_of_le_of_lt (sorted_getD_mono arr hs (by omega) (by omega)) hlt
        · exact hK
        · intro hmeq i him
          exact lt_of_le_of_lt (sorted_getD_mono arr hs (show i ≤ m by omega) (by omega)) hlt
      · rw [if_neg hlt]
        apply ih s m ((s + m) / 2)
        · have key : m * (arr.length + 1) + (arr.length + 1) ≤ e * (arr.length + 1) := by
            calc m * (arr.length + 1) + (arr.length + 1)
                = (m + 1) * (arr.length + 1) := by ring
              _ ≤ e * (arr.length + 1) := Nat.mul_le_mul_right _ hmlt
          generalize hA : m * (arr.length + 1) = A at key ⊢
          generalize hB : e * (arr.length + 1) = B at key hfuel
          omega
        · omega
        · omega
        · omega
        · exact hQ
        · intro i hmi hiL
          have := sorted_getD_mono arr hs hmi hiL
          omega
        · intro hmeq i him
          exact hQ i (by omega)

/-- C6: for every ascending-sorted array arr and value v, lower_bound
returns the smallest index i with arr[i] >= v (every earlier element is
below v, and the element at the returned index, when it exists, is at
least v), returns len(arr) when every element is less than v, and returns
0 on the empty array. -/
theorem claim_C6_lower_bound (arr : List Int) (v : Int) (hs : arr.Sorted (· ≤ ·)) :
    (∀ i, i < lowerBound arr v → arr.getD i 0 < v) ∧
    (lowerBound arr v < arr.length → v ≤ arr.getD (lowerBound arr v) 0) ∧
    lowerBound arr v ≤ arr.length ∧
    ((∀ x ∈ arr, x < v) → lowerBound arr v = arr.length) ∧
    (arr = [] → lowerBound arr v = 0) := by
  by_cases he : arr.isEmpty
  · have harr : arr = [] := by
      cases arr
      · rfl
      · simp [List.isEmpty] at he
    subst harr
    simp [lowerBound]
  · unfold lowerBound
    rw [if_neg he]
    have hne : arr.length ≠ 0 := by
      cases arr
      · simp [List.isEmpty] at he
      · simp
    have main := lbLoop_spec arr v hs ((arr.length + 1) * (arr.length + 1)) 0 arr.length
      (arr.length / 2) ?fuel (by omega) (by omega) (le_refl _) ?q ?k ?p
    case fuel =>
      have key : arr.length * (arr.length + 1) + (arr.length + 1)
          = (arr.length + 1) * (arr.length + 1) := by ring
      generalize hA : arr.length * (arr.length + 1) = A at key ⊢
      generalize hB : (arr.length + 1) * (arr.length + 1) = B at key ⊢
      omega
    case q => exact fun i hi => absurd hi (by omega)
    case k => exact fun i hLi hiL => absurd hiL (by omega)
    case p => exact fun hmeq => absurd hmeq (by omega)
    refine ⟨main.1, ?_, main.2.2, ?_, ?_⟩
    · intro hlt
      have := main.2.1 _ (le_refl _) hlt
      omega
    · intro hall
      by_contra hne2
      have hlt : lbLoop arr v ((arr.length + 1) * (arr.length + 1)) 0 arr.length
          (arr.length / 2) < arr.length := lt_of_le_of_ne main.2.2 hne2
      have h1 := main.2.1 _ (le_refl _) hlt
      have h2 : arr.getD (lbLoop arr v ((arr.length + 1) * (arr.length + 1)) 0 arr.length
          (arr.length / 2)) 0 ∈ arr := by
        rw [List.getD_eq_getElem arr 0 hlt]
        exact List.getElem_mem hlt
      exact h1 (hall _ h2)
    · intro harr
      rw [harr] at he
      simp [List.isEmpty] at he

theorem fillStep_cases (c : List Int) (k0 k1 j0 h mask : Int) (shift : Nat) (m stop : Int)
    (s : Int × List Nat) (u : Nat) (s' : Int × List Nat) (b : Bool)
    (heq : fillStep c k0 k1 j0 h mask shift m stop s u = some (s', b)) :
    (b = true ∧ s'.1 = s.1 + 1) ∨
    (b = false ∧ s' = s ∧ (¬ s.1 < stop ∨ s.2.getD (toUsize s.1) 0 = 0)) := by
  simp only [fillStep] at heq
  by_cases h1 : s.1 < stop
  · rw [if_pos h1] at heq
    by_cases h2 : s.2.length ≤ toUsize s.1
    · rw [if_pos h2] at heq
      cases heq
    · rw [if_neg h2] at heq
      by_cases h3 : s.2.getD (toUsize s.1) 0 = 0
      · rw [if_pos h3] at heq
        simp only [Option.some.injEq, Prod.mk.injEq] at heq
        right
        exact ⟨heq.2.symm, heq.1.symm, Or.inr h3⟩
      · rw [if_neg h3] at heq
        rcases Option.bind_eq_some.mp heq with ⟨tape3, _, h4⟩
        by_cases h5 : (tape3.set (toUsize s.1) ((h % 256).toNat)).length ≤ toUsize (s.1 + 1)
        · rw [if_pos h5] at h4
          cases h4
        · rw [if_neg h5] at h4
          simp only [Option.some.injEq, Prod.mk.injEq] at h4
          left
          exact ⟨h4.2.symm, by rw [← h4.1]⟩
  · rw [if_neg h1] at heq
    simp only [Option.some.injEq, Prod.mk.injEq] at heq
    right
    exact ⟨heq.2.symm, heq.1.symm, Or.inl h1⟩

theorem fillFold_inv (c : List Int) (k0 k1 j0 h mask : Int) (shift : Nat) (m stop : Int) :
    ∀ (l : List Nat) (s0 s1 : Int × List Nat),
    2 ≤ s0.1 → stop ≤ s0.1 + (l.length : Int) →
    foldB (fillStep c k0 k1 j0 h mask shift m stop) l s0 = some s1 →
    2 ≤ s1.1 ∧ (s1.1 < stop → s1.2.getD (toUsize s1.1) 0 = 0) := by
  intro l
  induction l with
  | nil =>
    intro s0 s1 h2 hst heq
    simp only [foldB, Option.some.injEq] at heq
    subst heq
    refine ⟨h2, fun hlt => absurd hlt ?_⟩
    simp only [List.length_nil] at hst
    omega
  | cons x xs ih =>
    intro s0 s1 h2 hst heq
    simp only [foldB] at heq
    cases hfx : fillStep c k0 k1 j0 h mask shift m stop s0 x with
    | none => rw [hfx] at heq; cases heq
    | some sb =>
      obtain ⟨sA, b⟩ := sb
      rw [hfx] at heq
      rcases fillStep_cases c k0 k1 j0 h mask shift m stop s0 x sA b hfx with
        ⟨hb, hinc⟩ | ⟨hb, hse, hor⟩
      · subst hb
        refine ih sA s1 (by omega) ?_ heq
        simp only [List.length_cons] at hst
        push_cast at hst ⊢
        omega
      · subst hb
        simp only [Option.some.injEq] at heq
        subst heq
        subst hse
        exact ⟨h2, fun hlt => hor.resolve_left (not_not_intro hlt)⟩

/-- C5: whenever fill_tape returns (pntr, tape) rather than rejecting the
parameter tuple, the outer simulation loop exited because the cell at the
pointer was zero and not by reaching the stop bound: tape[pntr] = 0 and
2 <= pntr < max_tape - |c|. -/
theorem claim_C5_fill_tape (maxTape : Int) (s c : List Int) (k0 k1 j0 j1 h : Int)
    (pntr : Int) (tape : List Nat)
    (heq : fillTape maxTape s c k0 k1 j0 j1 h = some (pntr, tape)) :
    tape.getD (toUsize pntr) 0 = 0 ∧ 2 ≤ pntr ∧ pntr < maxTape - (c.length : Int) := by
  simp only [fillTape] at heq
  rcases Option.bind_eq_some.mp heq with ⟨tape1, _, h2⟩
  by_cases hj : j1 = 0
  · rw [if_pos hj] at h2
    cases h2
  · rw [if_neg hj] at h2
    by_cases hinv : MODINV256.length ≤ toUsize (Int.fdiv j1 ((2 : Int) ^
        (foldBr (fun (ls : Int × Nat) (_u : Nat) =>
          if Int.land ls.1 1 = 0 then ((Int.fdiv ls.1 2, ls.2 + 1), true)
          else (ls, false)) (List.range 64) (lowBit j1, 0)).2))
    · rw [if_pos hinv] at h2
      cases h2
    · rw [if_neg hinv] at h2
      by_cases hm : MODINV256.getD (toUsize (Int.fdiv j1 ((2 : Int) ^
          (foldBr (fun (ls : Int × Nat) (_u : Nat) =>
            if Int.land ls.1 1 = 0 then ((Int.fdiv ls.1 2, ls.2 + 1), true)
            else (ls, false)) (List.range 64) (lowBit j1, 0)).2))) 0 = 0
      · rw [if_pos hm] at h2
        cases h2
      · rw [if_neg hm] at h2
        by_cases hstop : maxTape - (c.length : Int) ≤ 2
        · rw [if_pos hstop] at h2
          cases h2
        · rw [if_neg hstop] at h2
          rcases Option.bind_eq_some.mp h2 with ⟨⟨p1, t1⟩, hfold, hfin⟩
          by_cases hlt : p1 < maxTape - (c.length : Int)
          · rw [if_pos hlt] at hfin
            simp only [Option.some.injEq, Prod.mk.injEq] at hfin
            obtain ⟨rfl, rfl⟩ := hfin
            have hinv2 := fillFold_inv c k0 k1 j0 h
              (lowBit j1 - 1)
              (foldBr (fun (ls : Int × Nat) (_u : Nat) =>
                if Int.land ls.1 1 = 0 then ((Int.fdiv ls.1 2, ls.2 + 1), true)
                else (ls, false)) (List.range 64) (lowBit j1, 0)).2
              (MODINV256.getD (toUsize (Int.fdiv j1 ((2 : Int) ^
                (foldBr (fun (ls : Int × Nat) (_u : Nat) =>
                  if Int.land ls.1 1 = 0 then ((Int.fdiv ls.1 2, ls.2 + 1), true)
                  else (ls, false)) (List.range 64) (lowBit j1, 0)).2))) 0)
              (maxTape - (c.length : Int))
              (List.range (maxTape - (c.length : Int) - 2).toNat) (2, tape1) (p1, t1)
              (by omega) (by simp only [List.length_range]; omega) hfold
            exact ⟨hinv2.2 hlt, hinv2.1, hlt⟩
          · rw [if_neg hlt] at hfin
            cases hfin

theorem claim_C5_fill_tape_witness :
    fillTape 12 [1] [2] 0 0 1 1 0
      = some (10, [0, 1, 2, 4, 8, 16, 32, 64, 128, 0, 0, 0, 0, 0]) ∧
    (([0, 1, 2, 4, 8, 16, 32, 64, 128, 0, 0, 0, 0, 0] : List Nat).getD (toUsize 10) 0 = 0 ∧
      (2 : Int) ≤ 10 ∧ (10 : Int) < 12 - (([2] : List Int).length : Int)) :=
  ⟨by decide,
   claim_C5_fill_tape 12 [1] [2] 0 0 1 1 0 10
     [0, 1, 2, 4, 8, 16, 32, 64, 128, 0, 0, 0, 0, 0] (by decide)⟩

theorem claim_C6_lower_bound_witness :
    List.Sorted (· ≤ ·) [1, 3, 5] ∧ lowerBound [1, 3, 5] 4 ≤ 3 :=
  ⟨by decide, (claim_C6_lower_bound [1, 3, 5] 4 (by decide)).2.2.1⟩

theorem zerosOf_sorted (tape : List Nat) (mp : Int) : (zerosOf tape mp).Sorted (· < ·) := by
  unfold zerosOf
  apply List.Pairwise.filter
  unfold intRange
  exact (List.pairwise_lt_range _).map _ (fun a b hab => by omega)

theorem zerosOf_mem (tape : List Nat) (mp : Int) (i : Int) :
    i ∈ zerosOf tape mp ↔
      0 ≤ i ∧ i ≤ mp ∧ toUsize i < tape.length ∧ tape.getD (toUsize i) 0 = 0 := by
  unfold zerosOf
  rw [List.mem_filter, intRange_mem]
  simp only [Bool.and_eq_true, decide_eq_true_eq, beq_iff_eq]
  constructor
  · rintro ⟨⟨h1, h2⟩, h3, h4⟩
    exact ⟨h1, by omega, h3, h4⟩
  · rintro ⟨h1, h2, h3, h4⟩
    exact ⟨⟨h1, by omega⟩, h3, h4⟩

/-- C2 (amended): at the initial entry from solve — on the state built by
Solver::new — the zeros cache is the ascending-sorted list of the indices
i in [0, max_pointer] (and within the tape) at which the tape holds 0.
At recursive entries the invariant can fail (see the counterexample): the
cache is recomputed before, not after, the parent frame's write, so
overwriting a zero cell with a nonzero goal byte leaves a stale index in
the child's cache. -/
theorem claim_C2_new_zeros_consistent (goal tape : List Nat)
    (pointer maxPointer maxNodeCost : Int) (uniqueCells : Bool) :
    ((SolverSt.new goal tape pointer maxPointer maxNodeCost uniqueCells).zeros.Sorted
      (· < ·)) ∧
    (∀ i : Int,
      i ∈ (SolverSt.new goal tape pointer maxPointer maxNodeCost uniqueCells).zeros ↔
        0 ≤ i ∧ i ≤ maxPointer ∧ toUsize i < tape.length ∧ tape.getD (toUsize i) 0 = 0) :=
  ⟨zerosOf_sorted tape maxPointer, fun i => zerosOf_mem tape maxPointer i⟩

/-- C2 counterexample: a concrete, consistent entry (goal [7], tape [0, 5],
zeros [0], pointer 1, max_pointer 1) for which the monitored recursion
reports a violation: the move-left candidate recomputes the cache while
the target cell still holds 0 and only then writes goal byte 7, so the
child entry sees zeros = [0] while the tape is [7, 5]. -/
theorem claim_C2_counterexample :
    zerosConsistentB ⟨[7], [0, 5], 0, 1, 1, 20, false, [0]⟩ = true ∧
    (exhaustiveF 2 ⟨[7], [0, 5], 0, 1, 1, 20, false, [0]⟩ 0 0 1 20).map
      (fun r => r.2.2) = some false := by
  exact ⟨by decide, by decide⟩

/-- C3 counterexample: at initialization length L = 14 with goal [1] and
tape [255, 255, 255], try_solve reports the path [(1, 255)] (stay and wrap
the cell from 255 to 1) and then sets limit to 17 — the character length
of the 14-character init segment plus the 3-character tail "++." — while
path.cost() + L = 255 + 14 = 269. -/
theorem claim_C3_counterexample :
    (trySolve ⟨[1], 400, true, false, 300⟩ 14 1 2 [1] [2] (0, 0) (1, 1) 0 [255, 255, 255]).2
      = [([⟨1, 255, false⟩], 17)] ∧
    (trySolve ⟨[1], 400, true, false, 300⟩ 14 1 2 [1] [2] (0, 0) (1, 1) 0
      [255, 255, 255]).1.limit = 17 ∧
    pathCost [⟨1, 255, false⟩] + 14 ≠ 17 := by
  exact ⟨by decide, by decide, by decide⟩

/-- C3 (amended): when rolling_limit is set, after a reported solution the
cruncher's limit field is set to the character length of the emitted full
program — the init segment to_bf_string(s, c, k, j, h) followed by the
output tail build_output_sequence(path, goal, tape, pntr), i.e.
report_solution's return value — not to path.cost() + L, from which it
differs whenever wrap-around byte adjustment or zip/roll moves make the
emitted tail shorter than the path cost.  Stated here for the
non-mirrored branch (c.len <= 1); the mirrored branch updates the limit
the same way with the mirrored parameters. -/
theorem claim_C3_rolling_limit (cr : CruncherSt) (len pntr maxPntr : Int) (s c : List Int)
    (k j : Int × Int) (h : Int) (tape : List Nat) (path1 : List BNode)
    (hroll : cr.rollingLimit = true) (hc : c.length ≤ 1)
    (hsol : (SolverSt.new cr.goal tape pntr maxPntr cr.maxNodeCost cr.uniqueCells).solve
      (cr.limit - len) = some path1) :
    (trySolve cr len pntr maxPntr s c k j h tape).1.limit
      = reportSolutionLen cr.goal s c k j h tape path1 pntr := by
  simp only [trySolve]
  rw [hsol]
  rw [if_neg (show ¬ 1 < c.length by omega)]
  simp [hroll]

theorem claim_C3_rolling_limit_witness :
    (⟨[1], 400, true, false, 300⟩ : CruncherSt).rollingLimit = true ∧
    ([2] : List Int).length ≤ 1 ∧
    (SolverSt.new [1] [255, 255, 255] 1 2 300 false).solve (400 - 14)
      = some [⟨1, 255, false⟩] ∧
    (trySolve ⟨[1], 400, true, false, 300⟩ 14 1 2 [1] [2] (0, 0) (1, 1) 0
        [255, 255, 255]).1.limit
      = reportSolutionLen [1] [1] [2] (0, 0) (1, 1) 0 [255, 255, 255] [⟨1, 255, false⟩] 1 :=
  ⟨rfl, by decide, by decide,
   claim_C3_rolling_limit ⟨[1], 400, true, false, 300⟩ 14 1 2 [1] [2] (0, 0) (1, 1) 0
     [255, 255, 255] [⟨1, 255, false⟩] rfl (by decide) (by decide)⟩

theorem claim_C4_s_list_gen_witness :
    (1 : Int) ≤ 1 ∧ [1] ∈ sListGen 1 ∧
      ((∃ v t, ([1] : List Int) = v :: t ∧ v ≠ 0) ∧
        1 ≤ sCost [1] ∧ sCost [1] ≤ 1 + 1) :=
  ⟨by decide, by decide, claim_C4_s_list_gen 1 (by decide) [1] (by decide)⟩

theorem SolverSt.ext' (a b : SolverSt) (h1 : a.goal = b.goal) (h2 : a.tape = b.tape)
    (h3 : a.minCost = b.minCost) (h4 : a.pointer = b.pointer)
    (h5 : a.maxPointer = b.maxPointer) (h6 : a.maxNodeCost = b.maxNodeCost)
    (h7 : a.uniqueCells = b.uniqueCells) (h8 : a.zeros = b.zeros) : a = b := by
  cases a
  cases b
  simp_all

theorem tcChild_goal (acc : SAcc) (start : Nat) (target : Int) :
    (tcChild acc start target).goal = acc.st.goal := by
  unfold tcChild recomputeZeros
  dsimp only
  split <;> rfl

theorem tcChild_tape (acc : SAcc) (start : Nat) (target : Int) :
    (tcChild acc start target).tape
      = acc.st.tape.set (toUsize target) (acc.st.goal.getD start 0) := by
  unfold tcChild recomputeZeros
  dsimp only
  split <;> rfl

theorem tcChild_minCost (acc : SAcc) (start : Nat) (target : Int) :
    (tcChild acc start target).minCost = acc.st.minCost := by
  unfold tcChild recomputeZeros
  dsimp only
  split <;> rfl

theorem tcChild_pointer (acc : SAcc) (start : Nat) (target : Int) :
    (tcChild acc start target).pointer = acc.st.pointer := by
  unfold tcChild recomputeZeros
  dsimp only
  split <;> rfl

theorem tcChild_maxPointer (acc : SAcc) (start : Nat) (target : Int) :
    (tcChild acc start target).maxPointer = acc.st.maxPointer := by
  unfold tcChild recomputeZeros
  dsimp only
  split <;> rfl

theorem tcChild_maxNodeCost (acc : SAcc) (start : Nat) (target : Int) :
    (tcChild acc start target).maxNodeCost = acc.st.maxNodeCost := by
  unfold tcChild recomputeZeros
  dsimp only
  split <;> rfl

theorem tcChild_uniqueCells (acc : SAcc) (start : Nat) (target : Int) :
    (tcChild acc start target).uniqueCells = acc.st.uniqueCells := by
  unfold tcChild recomputeZeros
  dsimp only
  split <;> rfl

theorem tcChild_zeros (acc : SAcc) (start : Nat) (target : Int) :
    (tcChild acc start target).zeros
      = if acc.st.tape.getD (toUsize target) 0 == 0
        then zerosOf acc.st.tape acc.st.maxPointer else acc.st.zeros := by
  unfold tcChild recomputeZeros
  dsimp only
  split <;> simp_all

theorem tcAfter_st (acc : SAcc) (target ncost : Int) (res : ExRes) :
    (tcAfter acc target ncost res).st
      = { res.2.1 with
          tape := res.2.1.tape.set (toUsize target) (acc.st.tape.getD (toUsize target) 0),
          zeros := acc.st.zeros } := by
  unfold tcAfter
  rcases res with ⟨r1, st3, ok1⟩
  cases r1 with
  | none => rfl
  | some sub =>
    dsimp only
    split <;> rfl

theorem tcAfter_ok (acc : SAcc) (target ncost : Int) (res : ExRes) :
    (tcAfter acc target ncost res).ok = (acc.ok && res.2.2) := by
  unfold tcAfter
  rcases res with ⟨r1, st3, ok1⟩
  cases r1 with
  | none => rfl
  | some sub =>
    dsimp only
    split <;> rfl

theorem tcAfter_minPath (acc : SAcc) (target ncost : Int) (res : ExRes) :
    (tcAfter acc target ncost res).minPath = acc.minPath ∨
      ∃ sub, res.1 = some sub ∧
        (tcAfter acc target ncost res).minPath = some (⟨target, ncost, false⟩ :: sub) := by
  unfold tcAfter
  rcases res with ⟨r1, st3, ok1⟩
  cases r1 with
  | none => exact Or.inl rfl
  | some sub =>
    dsimp only
    split
    · exact Or.inr ⟨sub, rfl, rfl⟩
    · exact Or.inl rfl

theorem tryCand_frame (rec : RecT) (hrec : FrameRec rec) (acc : SAcc) (cost : Int)
    (start : Nat) (maxCost nextCost target ncost : Int) (acc' : SAcc)
    (h : tryCand rec acc cost start maxCost nextCost target ncost = some acc') :
    acc'.st = acc.st := by
  unfold tryCand at h
  rcases Option.map_eq_some'.mp h with ⟨res, hres, rfl⟩
  obtain ⟨r1, st3, ok1⟩ := res
  have hst3 : st3 = tcChild acc start target := hrec _ _ _ _ _ _ _ _ hres
  rw [tcAfter_st]
  apply SolverSt.ext'
  · show st3.goal = acc.st.goal
    rw [hst3]; exact tcChild_goal acc start target
  · show st3.tape.set (toUsize target) (acc.st.tape.getD (toUsize target) 0)
      = acc.st.tape
    rw [hst3, tcChild_tape, List.set_set]
    exact set_getD_cancel 0 acc.st.tape (toUsize target)
  · show st3.minCost = acc.st.minCost
    rw [hst3]; exact tcChild_minCost acc start target
  · show st3.pointer = acc.st.pointer
    rw [hst3]; exact tcChild_pointer acc start target
  · show st3.maxPointer = acc.st.maxPointer
    rw [hst3]; exact tcChild_maxPointer acc start target
  · show st3.maxNodeCost = acc.st.maxNodeCost
    rw [hst3]; exact tcChild_maxNodeCost acc start target
  · show st3.uniqueCells = acc.st.uniqueCells
    rw [hst3]; exact tcChild_uniqueCells acc start target
  · rfl

theorem foldB_st_frame (f : SAcc → Int → Option (SAcc × Bool))
    (hf : ∀ a i a' b, f a i = some (a', b) → a'.st = a.st)
    (l : List Int) (acc acc' : SAcc) (h : foldB f l acc = some acc') : acc'.st = acc.st :=
  foldB_pres f l (fun a => a.st = acc.st)
    (fun s x s' b _ hP hfx => (hf s x s' b hfx).trans hP) acc acc' rfl h

theorem stayMove_frame (rec : RecT) (hrec : FrameRec rec) (acc : SAcc) (cost : Int)
    (start : Nat) (maxCost nextCost iMax pointer : Int) (acc' : SAcc)
    (h : stayMove rec acc cost start maxCost nextCost iMax pointer = some acc') :
    acc'.st = acc.st := by
  simp only [stayMove] at h
  split at h
  · split at h
    · split at h
      · exact tryCand_frame rec hrec _ _ _ _ _ _ _ _ h
      · simp only [Option.some.injEq] at h; rw [← h]
    · simp only [Option.some.injEq] at h; rw [← h]
  · simp only [Option.some.injEq] at h; rw [← h]

theorem leftMove_frame (rec : RecT) (hrec : FrameRec rec) (acc : SAcc) (cost : Int)
    (start : Nat) (maxCost nextCost iMax pointer : Int) (acc' : SAcc)
    (h : leftMove rec acc cost start maxCost nextCost iMax pointer = some acc') :
    acc'.st = acc.st := by
  simp only [leftMove] at h
  split at h
  · refine foldB_st_frame _ ?_ _ _ _ h
    intro a i a2 b hfa
    split at hfa
    · simp only [Option.some.injEq, Prod.mk.injEq] at hfa; rw [← hfa.1]
    · split at hfa
      · simp only [Option.some.injEq, Prod.mk.injEq] at hfa; rw [← hfa.1]
      · split at hfa
        · rcases Option.map_eq_some'.mp hfa with ⟨a3, ha3, heq⟩
          injection heq with h1 h2
          subst h1
          exact tryCand_frame rec hrec _ _ _ _ _ _ _ _ ha3
        · simp only [Option.some.injEq, Prod.mk.injEq] at hfa; rw [← hfa.1]
  · simp only [Option.some.injEq] at h; rw [← h]

theorem rightMove_frame (rec : RecT) (hrec : FrameRec rec) (acc : SAcc) (cost : Int)
    (start : Nat) (maxCost nextCost iMax pointer : Int) (acc' : SAcc)
    (h : rightMove rec acc cost start maxCost nextCost iMax pointer = some acc') :
    acc'.st = acc.st := by
  simp only [rightMove] at h
  split at h
  · refine foldB_st_frame _ ?_ _ _ _ h
    intro a i a2 b hfa
    split at hfa
    · simp only [Option.some.injEq, Prod.mk.injEq] at hfa; rw [← hfa.1]
    · split at hfa
      · simp only [Option.some.injEq, Prod.mk.injEq] at hfa; rw [← hfa.1]
      · split at hfa
        · rcases Option.map_eq_some'.mp hfa with ⟨a3, ha3, heq⟩
          injection heq with h1 h2
          subst h1
          exact tryCand_frame rec hrec _ _ _ _ _ _ _ _ ha3
        · simp only [Option.some.injEq, Prod.mk.injEq] at hfa; rw [← hfa.1]
  · simp only [Option.some.injEq] at h; rw [← h]

theorem zipFarLeft_frame (rec : RecT) (hrec : FrameRec rec) (cost : Int) (start : Nat)
    (maxCost nextCost iMax zcost prevZero : Int) (a : SAcc) (i : Int) (a2 : SAcc) (b : Bool)
    (h : zipFarLeft rec cost start maxCost nextCost iMax zcost prevZero a i = some (a2, b)) :
    a2.st = a.st := by
  simp only [zipFarLeft] at h
  split at h
  · simp only [Option.some.injEq, Prod.mk.injEq] at h; rw [← h.1]
  · split at h
    · simp only [Option.some.injEq, Prod.mk.injEq] at h; rw [← h.1]
    · split at h
      · simp only [Option.some.injEq, Prod.mk.injEq] at h; rw [← h.1]
      · split at h
        · simp only [Option.some.injEq, Prod.mk.injEq] at h; rw [← h.1]
        · split at h
          · rcases Option.map_eq_some'.mp h with ⟨a3, ha3, heq⟩
            injection heq with h1 h2
            subst h1
            exact tryCand_frame rec hrec _ _ _ _ _ _ _ _ ha3
          · simp only [Option.some.injEq, Prod.mk.injEq] at h; rw [← h.1]

theorem zipNearLeft_frame (rec : RecT) (hrec : FrameRec rec) (cost : Int) (start : Nat)
    (maxCost nextCost iMax zcost pointer prevZero : Int) (a : SAcc) (i : Int)
    (a2 : SAcc) (b : Bool)
    (h : zipNearLeft rec cost start maxCost nextCost iMax zcost pointer prevZero a i
      = some (a2, b)) :
    a2.st = a.st := by
  simp only [zipNearLeft] at h
  split at h
  · simp only [Option.some.injEq, Prod.mk.injEq] at h; rw [← h.1]
  · split at h
    · simp only [Option.some.injEq, Prod.mk.injEq] at h; rw [← h.1]
    · split at h
      · simp only [Option.some.injEq, Prod.mk.injEq] at h; rw [← h.1]
      · split at h
        · simp only [Option.some.injEq, Prod.mk.injEq] at h; rw [← h.1]
        · split at h
          · rcases Option.map_eq_some'.mp h with ⟨a3, ha3, heq⟩
            injection heq with h1 h2
            subst h1
            exact tryCand_frame rec hrec _ _ _ _ _ _ _ _ ha3
          · simp only [Option.some.injEq, Prod.mk.injEq] at h; rw [← h.1]

theorem zipFarRight_frame (rec : RecT) (hrec : FrameRec rec) (cost : Int) (start : Nat)
    (maxCost nextCost iMax zcost nextZero : Int) (a : SAcc) (i : Int) (a2 : SAcc) (b : Bool)
    (h : zipFarRight rec cost start maxCost nextCost iMax zcost nextZero a i = some (a2, b)) :
    a2.st = a.st := by
  simp only [zipFarRight] at h
  split at h
  · simp only [Option.some.injEq, Prod.mk.injEq] at h; rw [← h.1]
  · split at h
    · simp only [Option.some.injEq, Prod.mk.injEq] at h; rw [← h.1]
    · split at h
      · simp only [Option.some.injEq, Prod.mk.injEq] at h; rw [← h.1]
      · split at h
        · rcases Option.map_eq_some'.mp h with ⟨a3, ha3, heq⟩
          injection heq with h1 h2
          subst h1
          exact tryCand_frame rec hrec _ _ _ _ _ _ _ _ ha3
        · simp only [Option.some.injEq, Prod.mk.injEq] at h; rw [← h.1]

theorem zipNearRight_frame (rec : RecT) (hrec : FrameRec rec) (cost : Int) (start : Nat)
    (maxCost nextCost iMax zcost pointer nextZero : Int) (a : SAcc) (i : Int)
    (a2 : SAcc) (b : Bool)
    (h : zipNearRight rec cost start maxCost nextCost iMax zcost pointer nextZero a i
      = some (a2, b)) :
    a2.st = a.st := by
  simp only [zipNearRight] at h
  split at h
  · simp only [Option.some.injEq, Prod.mk.injEq] at h; rw [← h.1]
  · split at h
    · simp only [Option.some.injEq, Prod.mk.injEq] at h; rw [← h.1]
    · split at h
      · simp only [Option.some.injEq, Prod.mk.injEq] at h; rw [← h.1]
      · split at h
        · simp only [Option.some.injEq, Prod.mk.injEq] at h; rw [← h.1]
        · split at h
          · rcases Option.map_eq_some'.mp h with ⟨a3, ha3, heq⟩
            injection heq with h1 h2
            subst h1
            exact tryCand_frame rec hrec _ _ _ _ _ _ _ _ ha3
          · simp only [Option.some.injEq, Prod.mk.injEq] at h; rw [← h.1]

theorem snd_mem_of_mem_enum {α : Type _} (l : List α) (p : Nat × α) (hp : p ∈ l.enum) :
    p.2 ∈ l := by
  have h := List.enum_map_snd l
  rw [← h]
  exact List.mem_map_of_mem _ hp

theorem rollWrite_length (st : SolverSt) (start : Nat) (subpath : List BNode) :
    (rollWrite st start subpath).length = st.tape.length := by
  unfold rollWrite
  exact foldl_set_length (fun ob => toUsize ob.2.pointer)
    (fun ob => st.goal.getD (start + ob.1) 0) subpath.enum st.tape

theorem rollWrite_getD_off (st : SolverSt) (start : Nat) (subpath : List BNode) (j : Nat)
    (hj : ∀ n ∈ subpath, toUsize n.pointer ≠ j) :
    (rollWrite st start subpath).getD j 0 = st.tape.getD j 0 := by
  unfold rollWrite
  apply foldl_set_getD_off
  intro ob hob
  exact hj ob.2 (snd_mem_of_mem_enum _ _ hob)

theorem rollWrite_restore (st : SolverSt) (start : Nat) (subpath : List BNode) :
    ((subpath.zip (subpath.map (fun n => st.tape.getD (toUsize n.pointer) 0))).foldl
      (fun t nv => t.set (toUsize nv.1.pointer) nv.2) (rollWrite st start subpath))
      = st.tape := by
  apply restore_foldl
  · exact rollWrite_length st start subpath
  · exact fun j hj => rollWrite_getD_off st start subpath j hj

theorem rollAfter_st (a : SAcc) (subpath : List BNode) (saved : List Nat) (res : ExRes) :
    (rollAfter a subpath saved res).st
      = { res.2.1 with
          tape := (subpath.zip saved).foldl
            (fun t nv => t.set (toUsize nv.1.pointer) nv.2) res.2.1.tape } := rfl

theorem rollAfter_ok (a : SAcc) (subpath : List BNode) (saved : List Nat) (res : ExRes) :
    (rollAfter a subpath saved res).ok = (a.ok && res.2.2) := rfl

theorem rollAfter_minPath (a : SAcc) (subpath : List BNode) (saved : List Nat) (res : ExRes) :
    (rollAfter a subpath saved res).minPath = a.minPath ∨
      ∃ sub2, res.1 = some sub2 ∧
        (rollAfter a subpath saved res).minPath = some (subpath ++ sub2) := by
  unfold rollAfter
  rcases res with ⟨r1, st3, ok1⟩
  cases r1 with
  | none => exact Or.inl rfl
  | some sub2 =>
    dsimp only
    split
    · exact Or.inr ⟨sub2, rfl, rfl⟩
    · exact Or.inl rfl

theorem rollAfter_frame (a : SAcc) (subpath : List BNode) (res : ExRes) (start : Nat)
    (hst : res.2.1 = { a.st with tape := rollWrite a.st start subpath }) :
    (rollAfter a subpath
      (subpath.map (fun n => a.st.tape.getD (toUsize n.pointer) 0)) res).st = a.st := by
  rw [rollAfter_st, hst]
  apply SolverSt.ext'
  case h2 => exact rollWrite_restore a.st start subpath
  all_goals rfl

theorem rollStepLeft_frame (rec : RecT) (hrec : FrameRec rec) (cost : Int) (start : Nat)
    (maxCost nextCost iMax pointer prevZero : Int) (s : SAcc × Int × Int) (u : Nat)
    (s' : SAcc × Int × Int) (b : Bool)
    (h : rollStepLeft rec cost start maxCost nextCost iMax pointer prevZero s u
      = some (s', b)) :
    s'.1.st = s.1.st := by
  simp only [rollStepLeft] at h
  split at h
  · split at h
    · simp only [Option.some.injEq, Prod.mk.injEq] at h; rw [← h.1]
    · split at h
      · split at h
        · rcases Option.map_eq_some'.mp h with ⟨res, hres, heq⟩
          obtain ⟨r2, st3, ok2⟩ := res
          have hst3 := hrec _ _ _ _ _ _ _ _ hres
          injection heq with h1 h2
          subst h1
          exact rollAfter_frame s.1 _ (r2, st3, ok2) start hst3
        · simp only [Option.some.injEq, Prod.mk.injEq] at h; rw [← h.1]
      · simp only [Option.some.injEq, Prod.mk.injEq] at h; rw [← h.1]
  · simp only [Option.some.injEq, Prod.mk.injEq] at h; rw [← h.1]

theorem rollStepRight_frame (rec : RecT) (hrec : FrameRec rec) (cost : Int) (start : Nat)
    (maxCost nextCost iMax pointer nextZero : Int) (s : SAcc × Int × Int) (u : Nat)
    (s' : SAcc × Int × Int) (b : Bool)
    (h : rollStepRight rec cost start maxCost nextCost iMax pointer nextZero s u
      = some (s', b)) :
    s'.1.st = s.1.st := by
  simp only [rollStepRight] at h
  split at h
  · split at h
    · simp only [Option.some.injEq, Prod.mk.injEq] at h; rw [← h.1]
    · split at h
      · split at h
        · rcases Option.map_eq_some'.mp h with ⟨res, hres, heq⟩
          obtain ⟨r2, st3, ok2⟩ := res
          have hst3 := hrec _ _ _ _ _ _ _ _ hres
          injection heq with h1 h2
          subst h1
          exact rollAfter_frame s.1 _ (r2, st3, ok2) start hst3
        · simp only [Option.some.injEq, Prod.mk.injEq] at h; rw [← h.1]
      · simp only [Option.some.injEq, Prod.mk.injEq] at h; rw [← h.1]
  · simp only [Option.some.injEq, Prod.mk.injEq] at h; rw [← h.1]

theorem rollLeft_frame (rec : RecT) (hrec : FrameRec rec) (acc : SAcc) (cost : Int)
    (start : Nat) (maxCost nextCost iMax pointer pj0 prevZero : Int) (acc' : SAcc)
    (h : rollLeft rec acc cost start maxCost nextCost iMax pointer pj0 prevZero
      = some acc') :
    acc'.st = acc.st := by
  simp only [rollLeft] at h
  rcases Option.map_eq_some'.mp h with ⟨sEnd, hfold, rfl⟩
  exact foldB_pres _ _ (fun s => s.1.st = acc.st)
    (fun s x s2 b _ hP hfx =>
      (rollStepLeft_frame rec hrec _ _ _ _ _ _ _ s x s2 b hfx).trans hP)
    _ sEnd rfl hfold

theorem rollRight_frame (rec : RecT) (hrec : FrameRec rec) (acc : SAcc) (cost : Int)
    (start : Nat) (maxCost nextCost iMax pointer nj0 nextZero : Int) (acc' : SAcc)
    (h : rollRight rec acc cost start maxCost nextCost iMax pointer nj0 nextZero
      = some acc') :
    acc'.st = acc.st := by
  simp only [rollRight] at h
  rcases Option.map_eq_some'.mp h with ⟨sEnd, hfold, rfl⟩
  exact foldB_pres _ _ (fun s => s.1.st = acc.st)
    (fun s x s2 b _ hP hfx =>
      (rollStepRight_frame rec hrec _ _ _ _ _ _ _ s x s2 b hfx).trans hP)
    _ sEnd rfl hfold

theorem zipLeft_frame (rec : RecT) (hrec : FrameRec rec) (acc : SAcc) (cost : Int)
    (start : Nat) (maxCost nextCost iMax pointer : Int) (acc' : SAcc)
    (h : zipLeft rec acc cost start maxCost nextCost iMax pointer = some acc') :
    acc'.st = acc.st := by
  simp only [zipLeft] at h
  split at h
  · split at h
    · split at h
      · rcases Option.bind_eq_some.mp h with ⟨a1, hf1, h2⟩
        rcases Option.bind_eq_some.mp h2 with ⟨a2, hf2, h3⟩
        have ha1 : a1.st = acc.st := foldB_st_frame _
          (fun a i a2 b hfa => zipFarLeft_frame rec hrec _ _ _ _ _ _ _ a i a2 b hfa)
          _ acc a1 hf1
        have ha2 : a2.st = a1.st := foldB_st_frame _
          (fun a i a3 b hfa => zipNearLeft_frame rec hrec _ _ _ _ _ _ _ _ a i a3 b hfa)
          _ a1 a2 hf2
        have ha3 := rollLeft_frame rec hrec a2 cost start maxCost nextCost iMax
          pointer _ _ acc' h3
        rw [ha3, ha2, ha1]
      · simp only [Option.some.injEq] at h; rw [← h]
    · simp only [Option.some.injEq] at h; rw [← h]
  · simp only [Option.some.injEq] at h; rw [← h]

theorem zipRight_frame (rec : RecT) (hrec : FrameRec rec) (acc : SAcc) (cost : Int)
    (start : Nat) (maxCost nextCost iMax pointer : Int) (acc' : SAcc)
    (h : zipRight rec acc cost start maxCost nextCost iMax pointer = some acc') :
    acc'.st = acc.st := by
  simp only [zipRight] at h
  split at h
  · split at h
    · split at h
      · rcases Option.bind_eq_some.mp h with ⟨a1, hf1, h2⟩
        rcases Option.bind_eq_some.mp h2 with ⟨a2, hf2, h3⟩
        have ha1 : a1.st = acc.st := foldB_st_frame _
          (fun a i a2 b hfa => zipFarRight_frame rec hrec _ _ _ _ _ _ _ a i a2 b hfa)
          _ acc a1 hf1
        have ha2 : a2.st = a1.st := foldB_st_frame _
          (fun a i a3 b hfa => zipNearRight_frame rec hrec _ _ _ _ _ _ _ _ a i a3 b hfa)
          _ a1 a2 hf2
        have ha3 := rollRight_frame rec hrec a2 cost start maxCost nextCost iMax
          pointer _ _ acc' h3
        rw [ha3, ha2, ha1]
      · simp only [Option.some.injEq] at h; rw [← h]
    · simp only [Option.some.injEq] at h; rw [← h]
  · simp only [Option.some.injEq] at h; rw [← h]

theorem exhaustiveF_frame : ∀ fuel : Nat, FrameRec (exhaustiveF fuel) := by
  intro fuel
  induction fuel with
  | zero => intro st cost start pointer maxCost r st' ok h; cases h
  | succ fuel ih =>
    intro st cost start pointer maxCost r st' ok h
    simp only [exhaustiveF] at h
    split at h
    · simp only [Option.some.injEq, Prod.mk.injEq] at h
      rw [← h.2.1]
    · split at h
      · simp only [Option.some.injEq, Prod.mk.injEq] at h
        rw [← h.2.1]
      · rcases Option.bind_eq_some.mp h with ⟨a1, h1, hb1⟩
        rcases Option.bind_eq_some.mp hb1 with ⟨a2, h2, hb2⟩
        rcases Option.bind_eq_some.mp hb2 with ⟨a3, h3, hb3⟩
        rcases Option.bind_eq_some.mp hb3 with ⟨a4, h4, hb4⟩
        rcases Option.bind_eq_some.mp hb4 with ⟨a5, h5, hb5⟩
        have ha1 : a1.st = st := stayMove_frame _ ih _ _ _ _ _ _ _ _ h1
        have ha2 : a2.st = a1.st := leftMove_frame _ ih _ _ _ _ _ _ _ _ h2
        have ha3 : a3.st = a2.st := rightMove_frame _ ih _ _ _ _ _ _ _ _ h3
        have ha4 : a4.st = a3.st := zipLeft_frame _ ih _ _ _ _ _ _ _ _ h4
        have ha5 : a5.st = a4.st := zipRight_frame _ ih _ _ _ _ _ _ _ _ h5
        simp only [Option.some.injEq, Prod.mk.injEq] at hb5
        rw [← hb5.2.1, ha5, ha4, ha3, ha2, ha1]

/-- C1: for every call to the solver's exhaustive recursion — any goal,
tape, cost, start index, pointer, and budget — when the call returns
(whether with a path or with no path), the solver's tape and its
zero-index cache are bit-identical to their values at the moment of the
call (in fact the whole solver state is returned unchanged). -/
theorem claim_C1_tape_restore (fuel : Nat) (st : SolverSt) (cost : Int) (start : Nat)
    (pointer maxCost : Int) (r : Option (List BNode)) (st' : SolverSt) (ok : Bool)
    (h : exhaustiveF fuel st cost start pointer maxCost = some (r, st', ok)) :
    st'.tape = st.tape ∧ st'.zeros = st.zeros := by
  have := exhaustiveF_frame fuel st cost start pointer maxCost r st' ok h
  rw [this]
  exact ⟨rfl, rfl⟩

theorem tryCand_some (rec : RecT) (g0 : List Nat) (start : Nat)
    (hsome : ∀ st1 c1 s1 p1 m1, start < s1 → s1 ≤ g0.length → st1.goal = g0 →
      (rec st1 c1 s1 p1 m1).isSome)
    (acc : SAcc) (cost maxCost nextCost target ncost : Int)
    (hacc : acc.st.goal = g0) (hstart : start < g0.length) :
    (tryCand rec acc cost start maxCost nextCost target ncost).isSome := by
  unfold tryCand
  have hs := hsome (tcChild acc start target) (cost + ncost) (start + 1) target
    (maxCost + nextCost) (by omega) (by omega) (by rw [tcChild_goal, hacc])
  rcases Option.isSome_iff_exists.mp hs with ⟨res, hres⟩
  rw [hres]
  rfl

theorem stayMove_some (rec : RecT) (g0 : List Nat) (start : Nat)
    (hsome : ∀ st1 c1 s1 p1 m1, start < s1 → s1 ≤ g0.length → st1.goal = g0 →
      (rec st1 c1 s1 p1 m1).isSome)
    (acc : SAcc) (cost maxCost nextCost iMax pointer : Int)
    (hacc : acc.st.goal = g0) (hstart : start < g0.length) :
    (stayMove rec acc cost start maxCost nextCost iMax pointer).isSome := by
  simp only [stayMove]
  split
  · split
    · split
      · exact tryCand_some rec g0 start hsome acc _ _ _ _ _ hacc hstart
      · rfl
    · rfl
  · rfl

theorem foldB_st_some (rec : RecT) ( _hrec : FrameRec rec)
    (f : SAcc → Int → Option (SAcc × Bool))
    (l : List Int) (acc : SAcc)
    (hf : ∀ a i, a.st = acc.st → (f a i).isSome)
    (hfr : ∀ a i a' b, f a i = some (a', b) → a'.st = a.st) :
    (foldB f l acc).isSome := by
  have := foldB_some f l (fun a => a.st = acc.st) ?step acc rfl
  · rcases this with ⟨s', hs', _⟩
    rw [hs']
    rfl
  case step =>
    intro a i _ hP
    rcases Option.isSome_iff_exists.mp (hf a i hP) with ⟨⟨a2, b⟩, hfa⟩
    exact ⟨a2, b, hfa, (hfr a i a2 b hfa).trans hP⟩

theorem leftMove_some (rec : RecT) (hrec : FrameRec rec) (g0 : List Nat) (start : Nat)
    (hsome : ∀ st1 c1 s1 p1 m1, start < s1 → s1 ≤ g0.length → st1.goal = g0 →
      (rec st1 c1 s1 p1 m1).isSome)
    (acc : SAcc) (cost maxCost nextCost iMax pointer : Int)
    (hacc : acc.st.goal = g0) (hstart : start < g0.length) :
    (leftMove rec acc cost start maxCost nextCost iMax pointer).isSome := by
  simp only [leftMove]
  split
  · apply foldB_st_some rec hrec _ _ acc
    · intro a i ha
      dsimp only
      split
      · rfl
      · split
        · rfl
        · split
          · rw [Option.isSome_map']
            exact tryCand_some rec g0 start hsome a _ _ _ _ _ (ha ▸ hacc) hstart
          · rfl
    · intro a i a2 b hfa
      split at hfa
      · simp only [Option.some.injEq, Prod.mk.injEq] at hfa; rw [← hfa.1]
      · split at hfa
        · simp only [Option.some.injEq, Prod.mk.injEq] at hfa; rw [← hfa.1]
        · split at hfa
          · rcases Option.map_eq_some'.mp hfa with ⟨a3, ha3, heq⟩
            injection heq with h1 h2
            subst h1
            exact tryCand_frame rec hrec _ _ _ _ _ _ _ _ ha3
          · simp only [Option.some.injEq, Prod.mk.injEq] at hfa; rw [← hfa.1]
  · rfl

theorem rightMove_some (rec : RecT) (hrec : FrameRec rec) (g0 : List Nat) (start : Nat)
    (hsome : ∀ st1 c1 s1 p1 m1, start < s1 → s1 ≤ g0.length → st1.goal = g0 →
      (rec st1 c1 s1 p1 m1).isSome)
    (acc : SAcc) (cost maxCost nextCost iMax pointer : Int)
    (hacc : acc.st.goal = g0) (hstart : start < g0.length) :
    (rightMove rec acc cost start maxCost nextCost iMax pointer).isSome := by
  simp only [rightMove]
  split
  · apply foldB_st_some rec hrec _ _ acc
    · intro a i ha
      dsimp only
      split
      · rfl
      · split
        · rfl
        · split
          · rw [Option.isSome_map']
            exact tryCand_some rec g0 start hsome a _ _ _ _ _ (ha ▸ hacc) hstart
          · rfl
    · intro a i a2 b hfa
      split at hfa
      · simp only [Option.some.injEq, Prod.mk.injEq] at hfa; rw [← hfa.1]
      · split at hfa
        · simp only [Option.some.injEq, Prod.mk.injEq] at hfa; rw [← hfa.1]
        · split at hfa
          · rcases Option.map_eq_some'.mp hfa with ⟨a3, ha3, heq⟩
            injection heq with h1 h2
            subst h1
            exact tryCand_frame rec hrec _ _ _ _ _ _ _ _ ha3
          · simp only [Option.some.injEq, Prod.mk.injEq] at hfa; rw [← hfa.1]
  · rfl

theorem zipFarLeft_some (rec : RecT) (g0 : List Nat) (start : Nat)
    (hsome : ∀ st1 c1 s1 p1 m1, start < s1 → s1 ≤ g0.length → st1.goal = g0 →
      (rec st1 c1 s1 p1 m1).isSome)
    (cost maxCost nextCost iMax zcost prevZero : Int) (a : SAcc) (i : Int)
    (hacc : a.st.goal = g0) (hstart : start < g0.length) :
    (zipFarLeft rec cost start maxCost nextCost iMax zcost prevZero a i).isSome := by
  simp only [zipFarLeft]
  split
  · rfl
  · split
    · rfl
    · split
      · rfl
      · split
        · rfl
        · split
          · rw [Option.isSome_map']
            exact tryCand_some rec g0 start hsome a _ _ _ _ _ hacc hstart
          · rfl

theorem zipNearLeft_some (rec : RecT) (g0 : List Nat) (start : Nat)
    (hsome : ∀ st1 c1 s1 p1 m1, start < s1 → s1 ≤ g0.length → st1.goal = g0 →
      (rec st1 c1 s1 p1 m1).isSome)
    (cost maxCost nextCost iMax zcost pointer prevZero : Int) (a : SAcc) (i : Int)
    (hacc : a.st.goal = g0) (hstart : start < g0.length) :
    (zipNearLeft rec cost start maxCost nextCost iMax zcost pointer prevZero a i).isSome := by
  simp only [zipNearLeft]
  split
  · rfl
  · split
    · rfl
    · split
      · rfl
      · split
        · rfl
        · split
          · rw [Option.isSome_map']
            exact tryCand_some rec g0 start hsome a _ _ _ _ _ hacc hstart
          · rfl

theorem zipFarRight_some (rec : RecT) (g0 : List Nat) (start : Nat)
    (hsome : ∀ st1 c1 s1 p1 m1, start < s1 → s1 ≤ g0.length → st1.goal = g0 →
      (rec st1 c1 s1 p1 m1).isSome)
    (cost maxCost nextCost iMax zcost nextZero : Int) (a : SAcc) (i : Int)
    (hacc : a.st.goal = g0) (hstart : start < g0.length) :
    (zipFarRight rec cost start maxCost nextCost iMax zcost nextZero a i).isSome := by
  simp only [zipFarRight]
  split
  · rfl
  · split
    · rfl
    · split
      · rfl
      · split
        · rw [Option.isSome_map']
          exact tryCand_some rec g0 start hsome a _ _ _ _ _ hacc hstart
        · rfl

theorem zipNearRight_some (rec : RecT) (g0 : List Nat) (start : Nat)
    (hsome : ∀ st1 c1 s1 p1 m1, start < s1 → s1 ≤ g0.length → st1.goal = g0 →
      (rec st1 c1 s1 p1 m1).isSome)
    (cost maxCost nextCost iMax zcost pointer nextZero : Int) (a : SAcc) (i : Int)
    (hacc : a.st.goal = g0) (hstart : start < g0.length) :
    (zipNearRight rec cost start maxCost nextCost iMax zcost pointer nextZero a i).isSome := by
  simp only [zipNearRight]
  split
  · rfl
  · split
    · rfl
    · split
      · rfl
      · split
        · rfl
        · split
          · rw [Option.isSome_map']
            exact tryCand_some rec g0 start hsome a _ _ _ _ _ hacc hstart
          · rfl

theorem rollStepLeft_some (rec : RecT) (g0 : List Nat) (start : Nat)
    (hsome : ∀ st1 c1 s1 p1 m1, start < s1 → s1 ≤ g0.length → st1.goal = g0 →
      (rec st1 c1 s1 p1 m1).isSome)
    (cost maxCost nextCost iMax pointer prevZero : Int) (s : SAcc × Int × Int) (u : Nat)
    (hacc : s.1.st.goal = g0) :
    (rollStepLeft rec cost start maxCost nextCost iMax pointer prevZero s u).isSome := by
  simp only [rollStepLeft]
  split
  · rename_i hcond
    split
    · rfl
    · split
      · split
        · rw [Option.isSome_map']
          apply hsome _ _ _ _ _ ?h1 ?h2 ?h3
          case h1 => omega
          case h2 =>
            have hlen : s.1.st.goal.length = g0.length := by rw [hacc]
            omega
          case h3 => exact hacc
        · rfl
      · rfl
  · rfl

theorem rollStepRight_some (rec : RecT) (g0 : List Nat) (start : Nat)
    (hsome : ∀ st1 c1 s1 p1 m1, start < s1 → s1 ≤ g0.length → st1.goal = g0 →
      (rec st1 c1 s1 p1 m1).isSome)
    (cost maxCost nextCost iMax pointer nextZero : Int) (s : SAcc × Int × Int) (u : Nat)
    (hacc : s.1.st.goal = g0) :
    (rollStepRight rec cost start maxCost nextCost iMax pointer nextZero s u).isSome := by
  simp only [rollStepRight]
  split
  · rename_i hcond
    split
    · rfl
    · split
      · split
        · rw [Option.isSome_map']
          apply hsome _ _ _ _ _ ?h1 ?h2 ?h3
          case h1 => omega
          case h2 =>
            have hlen : s.1.st.goal.length = g0.length := by rw [hacc]
            omega
          case h3 => exact hacc
        · rfl
      · rfl
  · rfl

theorem rollFoldLeft_some (rec : RecT) (hrec : FrameRec rec) (g0 : List Nat) (start : Nat)
    (hsome : ∀ st1 c1 s1 p1 m1, start < s1 → s1 ≤ g0.length → st1.goal = g0 →
      (rec st1 c1 s1 p1 m1).isSome)
    (cost maxCost nextCost iMax pointer prevZero : Int) (l : List Nat)
    (s0 : SAcc × Int × Int) (h0 : s0.1.st.goal = g0) :
    ((foldB (rollStepLeft rec cost start maxCost nextCost iMax pointer prevZero) l
      s0).map (fun s => s.1)).isSome := by
  rw [Option.isSome_map']
  have := foldB_some (rollStepLeft rec cost start maxCost nextCost iMax pointer prevZero)
    l (fun s => s.1.st.goal = g0) ?step s0 h0
  · rcases this with ⟨s', hs', _⟩
    rw [hs']
    rfl
  case step =>
    intro s x _ hP
    rcases Option.isSome_iff_exists.mp
      (rollStepLeft_some rec g0 start hsome cost maxCost nextCost iMax pointer prevZero
        s x hP) with ⟨⟨s2, b⟩, hfa⟩
    refine ⟨s2, b, hfa, ?_⟩
    show s2.1.st.goal = g0
    rw [rollStepLeft_frame rec hrec cost start maxCost nextCost iMax pointer prevZero
      s x s2 b hfa]
    exact hP

theorem rollLeft_some (rec : RecT) (hrec : FrameRec rec) (g0 : List Nat) (start : Nat)
    (hsome : ∀ st1 c1 s1 p1 m1, start < s1 → s1 ≤ g0.length → st1.goal = g0 →
      (rec st1 c1 s1 p1 m1).isSome)
    (acc : SAcc) (cost maxCost nextCost iMax pointer pj0 prevZero : Int)
    (hacc : acc.st.goal = g0) :
    (rollLeft rec acc cost start maxCost nextCost iMax pointer pj0 prevZero).isSome := by
  simp only [rollLeft]
  exact rollFoldLeft_some rec hrec g0 start hsome cost maxCost nextCost iMax pointer
    prevZero _ _ hacc

theorem rollFoldRight_some (rec : RecT) (hrec : FrameRec rec) (g0 : List Nat) (start : Nat)
    (hsome : ∀ st1 c1 s1 p1 m1, start < s1 → s1 ≤ g0.length → st1.goal = g0 →
      (rec st1 c1 s1 p1 m1).isSome)
    (cost maxCost nextCost iMax pointer nextZero : Int) (l : List Nat)
    (s0 : SAcc × Int × Int) (h0 : s0.1.st.goal = g0) :
    ((foldB (rollStepRight rec cost start maxCost nextCost iMax pointer nextZero) l
      s0).map (fun s => s.1)).isSome := by
  rw [Option.isSome_map']
  have := foldB_some (rollStepRight rec cost start maxCost nextCost iMax pointer nextZero)
    l (fun s => s.1.st.goal = g0) ?step s0 h0
  · rcases this with ⟨s', hs', _⟩
    rw [hs']
    rfl
  case step =>
    intro s x _ hP
    rcases Option.isSome_iff_exists.mp
      (rollStepRight_some rec g0 start hsome cost maxCost nextCost iMax pointer nextZero
        s x hP) with ⟨⟨s2, b⟩, hfa⟩
    refine ⟨s2, b, hfa, ?_⟩
    show s2.1.st.goal = g0
    rw [rollStepRight_frame rec hrec cost start maxCost nextCost iMax pointer nextZero
      s x s2 b hfa]
    exact hP

theorem rollRight_some (rec : RecT) (hrec : FrameRec rec) (g0 : List Nat) (start : Nat)
    (hsome : ∀ st1 c1 s1 p1 m1, start < s1 → s1 ≤ g0.length → st1.goal = g0 →
      (rec st1 c1 s1 p1 m1).isSome)
    (acc : SAcc) (cost maxCost nextCost iMax pointer nj0 nextZero : Int)
    (hacc : acc.st.goal = g0) :
    (rollRight rec acc cost start maxCost nextCost iMax pointer nj0 nextZero).isSome := by
  simp only [rollRight]
  exact rollFoldRight_some rec hrec g0 start hsome cost maxCost nextCost iMax pointer
    nextZero _ _ hacc

theorem zipLeft_some (rec : RecT) (hrec : FrameRec rec) (g0 : List Nat) (start : Nat)
    (hsome : ∀ st1 c1 s1 p1 m1, start < s1 → s1 ≤ g0.length → st1.goal = g0 →
      (rec st1 c1 s1 p1 m1).isSome)
    (acc : SAcc) (cost maxCost nextCost iMax pointer : Int)
    (hacc : acc.st.goal = g0) (hstart : start < g0.length) :
    (zipLeft rec acc cost start maxCost nextCost iMax pointer).isSome := by
  simp only [zipLeft]
  split
  · split
    · split
      · rcases Option.isSome_iff_exists.mp (foldB_st_some rec hrec _ (intRange 1 iMax) acc
          (fun a i ha => zipFarLeft_some rec g0 start hsome _ _ _ _ _ _ a i
            (ha ▸ hacc) hstart)
          (fun a i a2 b hfa => zipFarLeft_frame rec hrec _ _ _ _ _ _ _ a i a2 b hfa))
          with ⟨a1, h1⟩
        rw [h1, Option.some_bind]
        have ha1 : a1.st = acc.st := foldB_st_frame _
          (fun a i a2 b hfa => zipFarLeft_frame rec hrec _ _ _ _ _ _ _ a i a2 b hfa)
          _ acc a1 h1
        rcases Option.isSome_iff_exists.mp (foldB_st_some rec hrec _ (intRange 1 iMax) a1
          (fun a i ha => zipNearLeft_some rec g0 start hsome _ _ _ _ _ _ _ a i
            (ha ▸ ha1 ▸ hacc) hstart)
          (fun a i a2 b hfa => zipNearLeft_frame rec hrec _ _ _ _ _ _ _ _ a i a2 b hfa))
          with ⟨a2, h2⟩
        rw [h2, Option.some_bind]
        have ha2 : a2.st = a1.st := foldB_st_frame _
          (fun a i a3 b hfa => zipNearLeft_frame rec hrec _ _ _ _ _ _ _ _ a i a3 b hfa)
          _ a1 a2 h2
        exact rollLeft_some rec hrec g0 start hsome a2 _ _ _ _ _ _ _
          (by rw [ha2, ha1, hacc])
      · rfl
    · rfl
  · rfl

theorem zipRight_some (rec : RecT) (hrec : FrameRec rec) (g0 : List Nat) (start : Nat)
    (hsome : ∀ st1 c1 s1 p1 m1, start < s1 → s1 ≤ g0.length → st1.goal = g0 →
      (rec st1 c1 s1 p1 m1).isSome)
    (acc : SAcc) (cost maxCost nextCost iMax pointer : Int)
    (hacc : acc.st.goal = g0) (hstart : start < g0.length) :
    (zipRight rec acc cost start maxCost nextCost iMax pointer).isSome := by
  simp only [zipRight]
  split
  · split
    · split
      · rcases Option.isSome_iff_exists.mp (foldB_st_some rec hrec _ (intRange 1 iMax) acc
          (fun a i ha => zipFarRight_some rec g0 start hsome _ _ _ _ _ _ a i
            (ha ▸ hacc) hstart)
          (fun a i a2 b hfa => zipFarRight_frame rec hrec _ _ _ _ _ _ _ a i a2 b hfa))
          with ⟨a1, h1⟩
        rw [h1, Option.some_bind]
        have ha1 : a1.st = acc.st := foldB_st_frame _
          (fun a i a2 b hfa => zipFarRight_frame rec hrec _ _ _ _ _ _ _ a i a2 b hfa)
          _ acc a1 h1
        rcases Option.isSome_iff_exists.mp (foldB_st_some rec hrec _ (intRange 1 iMax) a1
          (fun a i ha => zipNearRight_some rec g0 start hsome _ _ _ _ _ _ _ a i
            (ha ▸ ha1 ▸ hacc) hstart)
          (fun a i a2 b hfa => zipNearRight_frame rec hrec _ _ _ _ _ _ _ _ a i a2 b hfa))
          with ⟨a2, h2⟩
        rw [h2, Option.some_bind]
        have ha2 : a2.st = a1.st := foldB_st_frame _
          (fun a i a3 b hfa => zipNearRight_frame rec hrec _ _ _ _ _ _ _ _ a i a3 b hfa)
          _ a1 a2 h2
        exact rollRight_some rec hrec g0 start hsome a2 _ _ _ _ _ _ _
          (by rw [ha2, ha1, hacc])
      · rfl
    · rfl
  · rfl

/-- C8: the exhaustive recursion terminates on every input: start strictly
increases at every recursive call (by 1 for single moves, by run_len >= 4
for roll blocks) and is bounded by the goal length, and each frame
explores only finitely many candidate moves (the i_max-bounded loops of
the embedding); formally, the fueled recursion never exhausts its fuel
once the fuel exceeds goal.len - start. -/
theorem claim_C8_termination : ∀ (fuel : Nat) (st : SolverSt) (cost : Int) (start : Nat)
    (pointer maxCost : Int), start ≤ st.goal.length → st.goal.length - start < fuel →
    (exhaustiveF fuel st cost start pointer maxCost).isSome := by
  intro fuel
  induction fuel with
  | zero =>
    intro st cost start pointer maxCost hstart hfuel
    exact absurd hfuel (by omega)
  | succ fuel ih =>
    intro st cost start pointer maxCost hstart hfuel
    simp only [exhaustiveF]
    split
    · rfl
    · rename_i hne
      split
      · rfl
      · have hstart2 : start < st.goal.length := by
          rcases Nat.lt_or_ge start st.goal.length with hlt | hge
          · exact hlt
          · exact absurd (Nat.le_antisymm hstart hge) hne
        have hsome : ∀ st1 c1 s1 p1 m1, start < s1 → s1 ≤ st.goal.length →
            st1.goal = st.goal →
            (exhaustiveF fuel st1 c1 s1 p1 m1).isSome := by
          intro st1 c1 s1 p1 m1 h1 h2 h3
          apply ih st1 c1 s1 p1 m1
          · rw [h3]; exact h2
          · rw [h3]; omega
        have hrec : FrameRec (fun a b c d e => exhaustiveF fuel a b c d e) :=
          exhaustiveF_frame fuel
        rcases Option.isSome_iff_exists.mp (stayMove_some _ st.goal start hsome
          ⟨st, none, true⟩ cost maxCost _ _ pointer rfl hstart2) with ⟨a1, h1⟩
        rw [h1, Option.some_bind]
        have ha1 : a1.st = st := stayMove_frame _ hrec _ _ _ _ _ _ _ _ h1
        rcases Option.isSome_iff_exists.mp (leftMove_some _ hrec st.goal start hsome
          a1 cost maxCost _ _ pointer (by rw [ha1]) hstart2) with ⟨a2, h2⟩
        rw [h2, Option.some_bind]
        have ha2 : a2.st = a1.st := leftMove_frame _ hrec _ _ _ _ _ _ _ _ h2
        rcases Option.isSome_iff_exists.mp (rightMove_some _ hrec st.goal start hsome
          a2 cost maxCost _ _ pointer (by rw [ha2, ha1]) hstart2) with ⟨a3, h3⟩
        rw [h3, Option.some_bind]
        have ha3 : a3.st = a2.st := rightMove_frame _ hrec _ _ _ _ _ _ _ _ h3
        rcases Option.isSome_iff_exists.mp (zipLeft_some _ hrec st.goal start hsome
          a3 cost maxCost _ _ pointer (by rw [ha3, ha2, ha1]) hstart2) with ⟨a4, h4⟩
        rw [h4, Option.some_bind]
        have ha4 : a4.st = a3.st := zipLeft_frame _ hrec _ _ _ _ _ _ _ _ h4
        rcases Option.isSome_iff_exists.mp (zipRight_some _ hrec st.goal start hsome
          a4 cost maxCost _ _ pointer (by rw [ha4, ha3, ha2, ha1]) hstart2) with ⟨a5, h5⟩
        rw [h5, Option.some_bind]
        rfl

theorem claim_C8_termination_witness :
    (0 : Nat) ≤ ([7, 8] : List Nat).length ∧ ([7, 8] : List Nat).length - 0 < 3 ∧
    (exhaustiveF 3 ⟨[7, 8], [0, 5, 6], 0, 1, 2, 20, false, [0]⟩ 0 0 1 40).isSome :=
  ⟨by decide, by decide,
   claim_C8_termination 3 ⟨[7, 8], [0, 5, 6], 0, 1, 2, 20, false, [0]⟩ 0 0 1 40
     (by decide) (by decide)⟩

theorem claim_C1_tape_restore_witness :
    exhaustiveF 2 ⟨[7], [0, 9], 0, 1, 1, 20, false, [0]⟩ 0 0 1 20
      = some (some [⟨1, 3, false⟩], ⟨[7], [0, 9], 0, 1, 1, 20, false, [0]⟩, false) ∧
    ((⟨[7], [0, 9], 0, 1, 1, 20, false, [0]⟩ : SolverSt).tape
        = (⟨[7], [0, 9], 0, 1, 1, 20, false, [0]⟩ : SolverSt).tape ∧
      (⟨[7], [0, 9], 0, 1, 1, 20, false, [0]⟩ : SolverSt).zeros
        = (⟨[7], [0, 9], 0, 1, 1, 20, false, [0]⟩ : SolverSt).zeros) :=
  ⟨by decide,
   claim_C1_tape_restore 2 ⟨[7], [0, 9], 0, 1, 1, 20, false, [0]⟩ 0 0 1 20
     (some [⟨1, 3, false⟩]) ⟨[7], [0, 9], 0, 1, 1, 20, false, [0]⟩ false (by decide)⟩

theorem getD_mem_or {α : Type _} : ∀ (l : List α) (i : Nat) (d : α),
    l.getD i d ∈ l ∨ l.getD i d = d := by
  intro l
  induction l with
  | nil => intro i d; right; simp [List.getD]
  | cons a t ih =>
    intro i d
    cases i with
    | zero => left; simp
    | succ n =>
      have hstep : (a :: t).getD (n + 1) d = t.getD n d := by simp [List.getD]
      rw [hstep]
      rcases ih n d with h | h
      · exact Or.inl (List.mem_cons_of_mem a h)
      · exact Or.inr h

theorem zeros_getD_bounds (st : SolverSt) (hz : zerosInBounds st)
    (hmp : 0 ≤ st.maxPointer) (k : Nat) :
    0 ≤ st.zeros.getD k 0 ∧ st.zeros.getD k 0 ≤ st.maxPointer := by
  rcases getD_mem_or st.zeros k 0 with hm | hd
  · exact hz _ hm
  · rw [hd]; exact ⟨le_refl 0, hmp⟩

theorem tcChild_zerosInBounds (acc : SAcc) (start : Nat) (target : Int)
    (hz : zerosInBounds acc.st) : zerosInBounds (tcChild acc start target) := by
  intro z hzm
  rw [tcChild_maxPointer]
  rw [tcChild_zeros] at hzm
  split at hzm
  · rcases (zerosOf_mem _ _ z).mp hzm with ⟨h1, h2, _⟩
    exact ⟨h1, h2⟩
  · exact hz z hzm

theorem rollAfter_bounds (a : SAcc) (subpath : List BNode) (saved : List Nat) (res : ExRes)
    (mp : Int) (hmin : pathInBounds mp a.minPath)
    (hsp : ∀ n ∈ subpath, 0 ≤ n.pointer ∧ n.pointer ≤ mp)
    (hres : pathInBounds mp res.1) :
    pathInBounds mp (rollAfter a subpath saved res).minPath := by
  rcases rollAfter_minPath a subpath saved res with hsame | ⟨sub2, hsub2, hnew⟩
  · rw [hsame]; exact hmin
  · rw [hnew]
    intro path hpath n hn
    cases hpath
    rcases List.mem_append.mp hn with hn1 | hn2
    · exact hsp n hn1
    · exact hres sub2 hsub2 n hn2

theorem tryCand_bounds (rec : RecT) (hb : BoundsRec rec) (a : SAcc) (cost : Int)
    (start : Nat) (maxCost nextCost target ncost : Int) (a' : SAcc)
    (h : tryCand rec a cost start maxCost nextCost target ncost = some a')
    (hz : zerosInBounds a.st) (ht0 : 0 ≤ target) (ht1 : target ≤ a.st.maxPointer)
    (hmin : pathInBounds a.st.maxPointer a.minPath) :
    pathInBounds a.st.maxPointer a'.minPath := by
  unfold tryCand at h
  rcases Option.map_eq_some'.mp h with ⟨res, hres, rfl⟩
  obtain ⟨r1, st3, ok1⟩ := res
  rcases tcAfter_minPath a target ncost (r1, st3, ok1) with hsame | ⟨sub, hsub, hnew⟩
  · rw [hsame]; exact hmin
  · rw [hnew]
    intro path hpath n hn
    cases hpath
    rcases List.mem_cons.mp hn with rfl | hn2
    · exact ⟨ht0, ht1⟩
    · have hchild := hb (tcChild a start target) (cost + ncost) (start + 1) target
        (maxCost + nextCost) r1 st3 ok1 hres (tcChild_zerosInBounds a start target hz)
        ht0 (by rw [tcChild_maxPointer]; exact ht1)
      have hnb := hchild sub hsub n hn2
      rw [tcChild_maxPointer] at hnb
      exact hnb

theorem stayMove_bounds (rec : RecT) (hb : BoundsRec rec) (acc : SAcc) (cost : Int)
    (start : Nat) (maxCost nextCost iMax pointer : Int) (acc' : SAcc)
    (h : stayMove rec acc cost start maxCost nextCost iMax pointer = some acc')
    (hz : zerosInBounds acc.st) (hp1 : pointer ≤ acc.st.maxPointer)
    (hmin : pathInBounds acc.st.maxPointer acc.minPath) :
    pathInBounds acc.st.maxPointer acc'.minPath := by
  simp only [stayMove] at h
  split at h
  · rename_i hp0
    split at h
    · split at h
      · exact tryCand_bounds rec hb acc cost start maxCost nextCost pointer _ acc' h
          hz hp0 hp1 hmin
      · simp only [Option.some.injEq] at h; rw [← h]; exact hmin
    · simp only [Option.some.injEq] at h; rw [← h]; exact hmin
  · simp only [Option.some.injEq] at h; rw [← h]; exact hmin

theorem leftMove_bounds (rec : RecT) (hrec : FrameRec rec) (hb : BoundsRec rec)
    (acc : SAcc) (cost : Int) (start : Nat) (maxCost nextCost iMax pointer : Int)
    (acc' : SAcc)
    (h : leftMove rec acc cost start maxCost nextCost iMax pointer = some acc')
    (hz : zerosInBounds acc.st) (hp1 : pointer ≤ acc.st.maxPointer)
    (hmin : pathInBounds acc.st.maxPointer acc.minPath) :
    pathInBounds acc.st.maxPointer acc'.minPath := by
  simp only [leftMove] at h
  split at h
  · have hP := foldB_pres _ _
      (fun a : SAcc => a.st = acc.st ∧ pathInBounds acc.st.maxPointer a.minPath)
      ?step _ acc' ⟨rfl, hmin⟩ h
    · exact hP.2
    case step =>
      intro a i a2 b hi hPa hfa
      split at hfa
      · simp only [Option.some.injEq, Prod.mk.injEq] at hfa
        rw [← hfa.1]; exact hPa
      · rename_i hile
        split at hfa
        · simp only [Option.some.injEq, Prod.mk.injEq] at hfa
          rw [← hfa.1]; exact hPa
        · split at hfa
          · rcases Option.map_eq_some'.mp hfa with ⟨a3, ha3, heq⟩
            injection heq with h1 h2
            subst h1
            have hi1 : 1 ≤ i := (intRange_mem.mp hi).1
            refine ⟨(tryCand_frame rec hrec _ _ _ _ _ _ _ _ ha3).trans hPa.1, ?_⟩
            have hbd := tryCand_bounds rec hb a cost start maxCost nextCost
              (pointer - i) _ a3 ha3 (by rw [hPa.1]; exact hz) (by omega)
              (by rw [hPa.1]; omega) (by rw [hPa.1]; exact hPa.2)
            rw [hPa.1] at hbd
            exact hbd
          · simp only [Option.some.injEq, Prod.mk.injEq] at hfa
            rw [← hfa.1]; exact hPa
  · simp only [Option.some.injEq] at h; rw [← h]; exact hmin

theorem rightMove_bounds (rec : RecT) (hrec : FrameRec rec) (hb : BoundsRec rec)
    (acc : SAcc) (cost : Int) (start : Nat) (maxCost nextCost iMax pointer : Int)
    (acc' : SAcc)
    (h : rightMove rec acc cost start maxCost nextCost iMax pointer = some acc')
    (hz : zerosInBounds acc.st) (hp0 : 0 ≤ pointer)
    (hmin : pathInBounds acc.st.maxPointer acc.minPath) :
    pathInBounds acc.st.maxPointer acc'.minPath := by
  simp only [rightMove] at h
  split at h
  · have hP := foldB_pres _ _
      (fun a : SAcc => a.st = acc.st ∧ pathInBounds acc.st.maxPointer a.minPath)
      ?step _ acc' ⟨rfl, hmin⟩ h
    · exact hP.2
    case step =>
      intro a i a2 b hi hPa hfa
      split at hfa
      · simp only [Option.some.injEq, Prod.mk.injEq] at hfa
        rw [← hfa.1]; exact hPa
      · rename_i hile
        split at hfa
        · simp only [Option.some.injEq, Prod.mk.injEq] at hfa
          rw [← hfa.1]; exact hPa
        · split at hfa
          · rcases Option.map_eq_some'.mp hfa with ⟨a3, ha3, heq⟩
            injection heq with h1 h2
            subst h1
            have hi1 : 1 ≤ i := (intRange_mem.mp hi).1
            refine ⟨(tryCand_frame rec hrec _ _ _ _ _ _ _ _ ha3).trans hPa.1, ?_⟩
            have hbd := tryCand_bounds rec hb a cost start maxCost nextCost
              (pointer + i) _ a3 ha3 (by rw [hPa.1]; exact hz) (by omega)
              (by omega) (by rw [hPa.1]; exact hPa.2)
            rw [hPa.1] at hbd
            exact hbd
          · simp only [Option.some.injEq, Prod.mk.injEq] at hfa
            rw [← hfa.1]; exact hPa
  · simp only [Option.some.injEq] at h; rw [← h]; exact hmin

theorem zipFarLeft_bounds (rec : RecT) (hb : BoundsRec rec) (cost : Int) (start : Nat)
    (maxCost nextCost iMax zcost prevZero : Int) (a : SAcc) (i : Int) (a' : SAcc) (b : Bool)
    (h : zipFarLeft rec cost start maxCost nextCost iMax zcost prevZero a i = some (a', b))
    (hz : zerosInBounds a.st) (hi1 : 1 ≤ i) (hpz1 : prevZero ≤ a.st.maxPointer)
    (hmin : pathInBounds a.st.maxPointer a.minPath) :
    pathInBounds a.st.maxPointer a'.minPath := by
  simp only [zipFarLeft] at h
  split at h
  · simp only [Option.some.injEq, Prod.mk.injEq] at h; rw [← h.1]; exact hmin
  · split at h
    · simp only [Option.some.injEq, Prod.mk.injEq] at h; rw [← h.1]; exact hmin
    · split at h
      · simp only [Option.some.injEq, Prod.mk.injEq] at h; rw [← h.1]; exact hmin
      · rename_i htneg
        split at h
        · simp only [Option.some.injEq, Prod.mk.injEq] at h; rw [← h.1]; exact hmin
        · split at h
          · rcases Option.map_eq_some'.mp h with ⟨a3, ha3, heq⟩
            injection heq with h1 h2
            subst h1
            exact tryCand_bounds rec hb a cost start maxCost nextCost (prevZero - i) _
              a3 ha3 hz (by omega) (by omega) hmin
          · simp only [Option.some.injEq, Prod.mk.injEq] at h; rw [← h.1]; exact hmin

theorem zipNearLeft_bounds (rec : RecT) (hb : BoundsRec rec) (cost : Int) (start : Nat)
    (maxCost nextCost iMax zcost pointer prevZero : Int) (a : SAcc) (i : Int) (a' : SAcc)
    (b : Bool)
    (h : zipNearLeft rec cost start maxCost nextCost iMax zcost pointer prevZero a i
      = some (a', b))
    (hz : zerosInBounds a.st) (hi1 : 1 ≤ i) (hpz0 : 0 ≤ prevZero)
    (hmin : pathInBounds a.st.maxPointer a.minPath) :
    pathInBounds a.st.maxPointer a'.minPath := by
  simp only [zipNearLeft] at h
  split at h
  · simp only [Option.some.injEq, Prod.mk.injEq] at h; rw [← h.1]; exact hmin
  · split at h
    · simp only [Option.some.injEq, Prod.mk.injEq] at h; rw [← h.1]; exact hmin
    · split at h
      · simp only [Option.some.injEq, Prod.mk.injEq] at h; rw [← h.1]; exact hmin
      · rename_i htle
        split at h
        · simp only [Option.some.injEq, Prod.mk.injEq] at h; rw [← h.1]; exact hmin
        · split at h
          · rcases Option.map_eq_some'.mp h with ⟨a3, ha3, heq⟩
            injection heq with h1 h2
            subst h1
            exact tryCand_bounds rec hb a cost start maxCost nextCost (prevZero + i) _
              a3 ha3 hz (by omega) (by omega) hmin
          · simp only [Option.some.injEq, Prod.mk.injEq] at h; rw [← h.1]; exact hmin

theorem zipFarRight_bounds (rec : RecT) (hb : BoundsRec rec) (cost : Int) (start : Nat)
    (maxCost nextCost iMax zcost nextZero : Int) (a : SAcc) (i : Int) (a' : SAcc) (b : Bool)
    (h : zipFarRight rec cost start maxCost nextCost iMax zcost nextZero a i = some (a', b))
    (hz : zerosInBounds a.st) (hi1 : 1 ≤ i) (hnz0 : 0 ≤ nextZero)
    (hmin : pathInBounds a.st.maxPointer a.minPath) :
    pathInBounds a.st.maxPointer a'.minPath := by
  simp only [zipFarRight] at h
  split at h
  · simp only [Option.some.injEq, Prod.mk.injEq] at h; rw [← h.1]; exact hmin
  · split at h
    · simp only [Option.some.injEq, Prod.mk.injEq] at h; rw [← h.1]; exact hmin
    · rename_i htle
      split at h
      · simp only [Option.some.injEq, Prod.mk.injEq] at h; rw [← h.1]; exact hmin
      · split at h
        · rcases Option.map_eq_some'.mp h with ⟨a3, ha3, heq⟩
          injection heq with h1 h2
          subst h1
          exact tryCand_bounds rec hb a cost start maxCost nextCost (nextZero + i) _
            a3 ha3 hz (by omega) (by omega) hmin
        · simp only [Option.some.injEq, Prod.mk.injEq] at h; rw [← h.1]; exact hmin

theorem zipNearRight_bounds (rec : RecT) (hb : BoundsRec rec) (cost : Int) (start : Nat)
    (maxCost nextCost iMax zcost pointer nextZero : Int) (a : SAcc) (i : Int) (a' : SAcc)
    (b : Bool)
    (h : zipNearRight rec cost start maxCost nextCost iMax zcost pointer nextZero a i
      = some (a', b))
    (hz : zerosInBounds a.st) (hi1 : 1 ≤ i) (hnz1 : nextZero ≤ a.st.maxPointer)
    (hmin : pathInBounds a.st.maxPointer a.minPath) :
    pathInBounds a.st.maxPointer a'.minPath := by
  simp only [zipNearRight] at h
  split at h
  · simp only [Option.some.injEq, Prod.mk.injEq] at h; rw [← h.1]; exact hmin
  · split at h
    · simp only [Option.some.injEq, Prod.mk.injEq] at h; rw [← h.1]; exact hmin
    · split at h
      · simp only [Option.some.injEq, Prod.mk.injEq] at h; rw [← h.1]; exact hmin
      · rename_i htneg
        split at h
        · simp only [Option.some.injEq, Prod.mk.injEq] at h; rw [← h.1]; exact hmin
        · split at h
          · rcases Option.map_eq_some'.mp h with ⟨a3, ha3, heq⟩
            injection heq with h1 h2
            subst h1
            exact tryCand_bounds rec hb a cost start maxCost nextCost (nextZero - i) _
              a3 ha3 hz (by omega) (by omega) hmin
          · simp only [Option.some.injEq, Prod.mk.injEq] at h; rw [← h.1]; exact hmin

theorem rollBuiltLeft (g tape : List Nat) (iMax pointer pj rl nc0 dc0 : Int) (start : Nat)
    (built : List BNode × Int × Bool)
    (hbu : built = foldBr (fun (b : List BNode × Int × Bool) (i : Int) =>
        let cell := pointer - pj - i
        if cell < 0 then ((b.1, b.2.1, false), false)
        else
          let cidx := toUsize cell
          if tape.length ≤ cidx then ((b.1, b.2.1, false), false)
          else
            let delta := absDiff (g.getD (start + i.toNat) 0) (tape.getD cidx 0)
            if iMax < delta then ((b.1, b.2.1, false), false)
            else ((b.1 ++ [⟨cell, delta, true⟩],
                   b.2.1 + nextCostAt g (start + i.toNat), b.2.2), true))
      (intRange 1 rl) ([⟨pointer - pj, nc0, true⟩], dc0, true))
    (hv : built.2.2 = true ∧ (built.1.length : Int) = rl) (hrl4 : 4 ≤ rl) :
    ∀ n ∈ built.1, 0 ≤ n.pointer ∧ n.pointer ≤ pointer - pj := by
  have hP := foldBr_pres (fun (b : List BNode × Int × Bool) (i : Int) =>
        let cell := pointer - pj - i
        if cell < 0 then ((b.1, b.2.1, false), false)
        else
          let cidx := toUsize cell
          if tape.length ≤ cidx then ((b.1, b.2.1, false), false)
          else
            let delta := absDiff (g.getD (start + i.toNat) 0) (tape.getD cidx 0)
            if iMax < delta then ((b.1, b.2.1, false), false)
            else ((b.1 ++ [⟨cell, delta, true⟩],
                   b.2.1 + nextCostAt g (start + i.toNat), b.2.2), true)) (intRange 1 rl)
    (fun (b : List BNode × Int × Bool) => b.2.2 = true →
      (∀ n ∈ b.1, n.pointer = pointer - pj ∨
        (0 ≤ n.pointer ∧ n.pointer + 1 ≤ pointer - pj)) ∧
      (2 ≤ b.1.length → 1 ≤ pointer - pj))
    ?step ([⟨pointer - pj, nc0, true⟩], dc0, true) ?init
  · rw [← hbu] at hP
    obtain ⟨H1, H2⟩ := hP hv.1
    have h1t : 1 ≤ pointer - pj := H2 (by omega)
    intro n hn
    rcases H1 n hn with heq | ⟨hge, hlt⟩
    · rw [heq]
      omega
    · exact ⟨hge, by omega⟩
  case init =>
    intro _
    refine ⟨?_, ?_⟩
    · intro n hn
      obtain rfl := List.mem_singleton.mp hn
      exact Or.inl rfl
    · intro h2
      exact absurd (show (2 : Nat) ≤ 1 from h2) (by decide)
  case step =>
    intro s x hx hPs
    dsimp only
    split
    · intro hc; exact Bool.noConfusion hc
    · split
      · intro hc; exact Bool.noConfusion hc
      · split
        · intro hc; exact Bool.noConfusion hc
        · rename_i hc0 hclen hcd
          intro hval2
          obtain ⟨H1, _⟩ := hPs hval2
          have hx1 : 1 ≤ x := (intRange_mem.mp hx).1
          refine ⟨?_, ?_⟩
          · intro n hn
            rcases List.mem_append.mp hn with hn1 | hn2
            · exact H1 n hn1
            · obtain rfl := List.mem_singleton.mp hn2
              right
              refine ⟨?_, ?_⟩
              · show (0 : Int) ≤ pointer - pj - x
                omega
              · show pointer - pj - x + 1 ≤ pointer - pj
                omega
          · intro _
            omega

theorem rollBuiltRight (g tape : List Nat) (mp iMax pointer nj rl nc0 dc0 : Int)
    (start : Nat) (built : List BNode × Int × Bool)
    (hbu : built = foldBr (fun (b : List BNode × Int × Bool) (i : Int) =>
        let cell := pointer + nj + i
        if mp < cell then ((b.1, b.2.1, false), false)
        else
          let cidx := toUsize cell
          if tape.length ≤ cidx then ((b.1, b.2.1, false), false)
          else
            let delta := absDiff (g.getD (start + i.toNat) 0) (tape.getD cidx 0)
            if iMax < delta then ((b.1, b.2.1, false), false)
            else ((b.1 ++ [⟨cell, delta, true⟩],
                   b.2.1 + nextCostAt g (start + i.toNat), b.2.2), true))
      (intRange 1 rl) ([⟨pointer + nj, nc0, true⟩], dc0, true))
    (hv : built.2.2 = true ∧ (built.1.length : Int) = rl) (hrl4 : 4 ≤ rl)
    (h0 : 0 ≤ pointer + nj) :
    ∀ n ∈ built.1, 0 ≤ n.pointer ∧ n.pointer ≤ mp := by
  have hP := foldBr_pres (fun (b : List BNode × Int × Bool) (i : Int) =>
        let cell := pointer + nj + i
        if mp < cell then ((b.1, b.2.1, false), false)
        else
          let cidx := toUsize cell
          if tape.length ≤ cidx then ((b.1, b.2.1, false), false)
          else
            let delta := absDiff (g.getD (start + i.toNat) 0) (tape.getD cidx 0)
            if iMax < delta then ((b.1, b.2.1, false), false)
            else ((b.1 ++ [⟨cell, delta, true⟩],
                   b.2.1 + nextCostAt g (start + i.toNat), b.2.2), true)) (intRange 1 rl)
    (fun (b : List BNode × Int × Bool) => b.2.2 = true →
      (∀ n ∈ b.1, n.pointer = pointer + nj ∨
        (pointer + nj + 1 ≤ n.pointer ∧ n.pointer ≤ mp)) ∧
      (2 ≤ b.1.length → pointer + nj + 1 ≤ mp))
    ?step ([⟨pointer + nj, nc0, true⟩], dc0, true) ?init
  · rw [← hbu] at hP
    obtain ⟨H1, H2⟩ := hP hv.1
    have h1t : pointer + nj + 1 ≤ mp := H2 (by omega)
    intro n hn
    rcases H1 n hn with heq | ⟨hge, hle⟩
    · rw [heq]
      omega
    · exact ⟨by omega, hle⟩
  case init =>
    intro _
    refine ⟨?_, ?_⟩
    · intro n hn
      obtain rfl := List.mem_singleton.mp hn
      exact Or.inl rfl
    · intro h2
      exact absurd (show (2 : Nat) ≤ 1 from h2) (by decide)
  case step =>
    intro s x hx hPs
    dsimp only
    split
    · intro hc; exact Bool.noConfusion hc
    · split
      · intro hc; exact Bool.noConfusion hc
      · split
        · intro hc; exact Bool.noConfusion hc
        · rename_i hc0 hclen hcd
          intro hval2
          obtain ⟨H1, _⟩ := hPs hval2
          have hx1 : 1 ≤ x := (intRange_mem.mp hx).1
          refine ⟨?_, ?_⟩
          · intro n hn
            rcases List.mem_append.mp hn with hn1 | hn2
            · exact H1 n hn1
            · obtain rfl := List.mem_singleton.mp hn2
              right
              refine ⟨?_, ?_⟩
              · show pointer + nj + 1 ≤ pointer + nj + x
                omega
              · show pointer + nj + x ≤ mp
                omega
          · intro _
            omega

theorem rollExtLeft_le (tape : List Nat) (mp pointer pj0 rl0 glenS : Int) (m : Nat)
    (hinit : pointer - pj0 ≤ mp) :
    pointer - (foldBr (fun (s : Int × Int) (_u : Nat) =>
        if s.1 < 1 ∧ pointer - s.1 < mp
            ∧ tape.getD (toUsize (pointer - s.1 + 1)) 0 ≠ 0
            ∧ s.2 < glenS then ((s.1 - 1, s.2 + 1), true)
        else (s, false)) (List.range m) (pj0, rl0)).1 ≤ mp := by
  refine foldBr_pres _ (List.range m) (fun s : Int × Int => pointer - s.1 ≤ mp)
    ?step (pj0, rl0) hinit
  case step =>
    intro s x hx hPs
    dsimp only
    split
    · rename_i hcond
      show pointer - (s.1 - 1) ≤ mp
      omega
    · exact hPs

theorem rollExtRight_ge (tape : List Nat) (pointer nj0 rl0 glenS : Int) (m : Nat)
    (hinit : 0 ≤ pointer + nj0) :
    0 ≤ pointer + (foldBr (fun (s : Int × Int) (_u : Nat) =>
        if s.1 < 1 ∧ 0 < pointer + s.1
            ∧ tape.getD (toUsize (pointer + s.1 - 1)) 0 ≠ 0
            ∧ s.2 < glenS then ((s.1 - 1, s.2 + 1), true)
        else (s, false)) (List.range m) (nj0, rl0)).1 := by
  refine foldBr_pres _ (List.range m) (fun s : Int × Int => 0 ≤ pointer + s.1)
    ?step (nj0, rl0) hinit
  case step =>
    intro s x hx hPs
    dsimp only
    split
    · rename_i hcond
      show (0 : Int) ≤ pointer + (s.1 - 1)
      omega
    · exact hPs

theorem zipScanLeft_nonneg (tape : List Nat) (pointer : Int) (m : Nat) :
    0 ≤ foldBr (fun (pj : Int) (_u : Nat) =>
        if pj ≤ pointer then
          if tape.length ≤ toUsize (pointer - pj) ∨ tape.getD (toUsize (pointer - pj)) 0 ≠ 0
          then (pj, false) else (pj + 1, true)
        else (pj, false)) (List.range m) 0 := by
  refine foldBr_pres _ (List.range m) (fun pj : Int => 0 ≤ pj) ?step 0 le_rfl
  case step =>
    intro s x hx hPs
    dsimp only
    split
    · split
      · exact hPs
      · show (0 : Int) ≤ s + 1
        omega
    · exact hPs

theorem zipScanRight_nonneg (tape : List Nat) (mp pointer : Int) (m : Nat) :
    0 ≤ foldBr (fun (nj : Int) (_u : Nat) =>
        if pointer + nj ≤ mp then
          if tape.length ≤ toUsize (pointer + nj) ∨ tape.getD (toUsize (pointer + nj)) 0 ≠ 0
          then (nj, false) else (nj + 1, true)
        else (nj, false)) (List.range m) 0 := by
  refine foldBr_pres _ (List.range m) (fun nj : Int => 0 ≤ nj) ?step 0 le_rfl
  case step =>
    intro s x hx hPs
    dsimp only
    split
    · split
      · exact hPs
      · show (0 : Int) ≤ s + 1
        omega
    · exact hPs

theorem rollStepLeft_bounds (rec : RecT) (hrec : FrameRec rec) (hb : BoundsRec rec)
    (cost : Int) (start : Nat) (maxCost nextCost iMax pointer prevZero : Int)
    (st0 : SolverSt) (hz : zerosInBounds st0) (hpz0 : 0 ≤ prevZero)
    (hpz1 : prevZero ≤ st0.maxPointer)
    (s : SAcc × Int × Int) (u : Nat) (s' : SAcc × Int × Int) (b : Bool)
    (h : rollStepLeft rec cost start maxCost nextCost iMax pointer prevZero s u
      = some (s', b))
    (hQ : s.1.st = st0 ∧ pathInBounds st0.maxPointer s.1.minPath
      ∧ pointer - s.2.1 ≤ st0.maxPointer) :
    s'.1.st = st0 ∧ pathInBounds st0.maxPointer s'.1.minPath
      ∧ pointer - s'.2.1 ≤ st0.maxPointer := by
  obtain ⟨hQst, hQmin, hQpj⟩ := hQ
  simp only [rollStepLeft] at h
  split at h
  · rename_i hrl
    split at h
    · simp only [Option.some.injEq, Prod.mk.injEq] at h
      rw [← h.1]
      exact ⟨hQst, hQmin, hQpj⟩
    · split at h
      · split at h
        · rename_i hv
          rcases Option.map_eq_some'.mp h with ⟨res, hres, heq⟩
          obtain ⟨r2, st3, ok2⟩ := res
          injection heq with h1 h2
          subst h1
          have hKL := rollBuiltLeft s.1.st.goal s.1.st.tape iMax pointer s.2.1 s.2.2
            _ _ start _ rfl hv hrl.1
          refine ⟨?_, ?_, ?_⟩
          · have hst3 := hrec _ _ _ _ _ _ _ _ hres
            exact (rollAfter_frame s.1 _ (r2, st3, ok2) start hst3).trans hQst
          · apply rollAfter_bounds
            · exact hQmin
            · intro n hn
              have hx := hKL n hn
              exact ⟨hx.1, le_trans hx.2 hQpj⟩
            · have hchild := hb _ _ _ _ _ _ _ _ hres ?hzc ?hpz0c ?hpz1c
              · have hchild2 : pathInBounds s.1.st.maxPointer r2 := hchild
                rw [hQst] at hchild2
                exact hchild2
              case hzc =>
                intro z hzm
                have hz2 : zerosInBounds s.1.st := by rw [hQst]; exact hz
                exact hz2 z hzm
              case hpz0c => exact hpz0
              case hpz1c =>
                show prevZero ≤ s.1.st.maxPointer
                rw [hQst]
                exact hpz1
          · show pointer - (s.2.1 + 1) ≤ st0.maxPointer
            omega
        · simp only [Option.some.injEq, Prod.mk.injEq] at h
          rw [← h.1]
          refine ⟨hQst, hQmin, ?_⟩
          show pointer - (s.2.1 + 1) ≤ st0.maxPointer
          omega
      · simp only [Option.some.injEq, Prod.mk.injEq] at h
        rw [← h.1]
        refine ⟨hQst, hQmin, ?_⟩
        show pointer - (s.2.1 + 1) ≤ st0.maxPointer
        omega
  · simp only [Option.some.injEq, Prod.mk.injEq] at h
    rw [← h.1]
    exact ⟨hQst, hQmin, hQpj⟩

theorem rollStepRight_bounds (rec : RecT) (hrec : FrameRec rec) (hb : BoundsRec rec)
    (cost : Int) (start : Nat) (maxCost nextCost iMax pointer nextZero : Int)
    (st0 : SolverSt) (hz : zerosInBounds st0) (hnz0 : 0 ≤ nextZero)
    (hnz1 : nextZero ≤ st0.maxPointer)
    (s : SAcc × Int × Int) (u : Nat) (s' : SAcc × Int × Int) (b : Bool)
    (h : rollStepRight rec cost start maxCost nextCost iMax pointer nextZero s u
      = some (s', b))
    (hQ : s.1.st = st0 ∧ pathInBounds st0.maxPointer s.1.minPath
      ∧ 0 ≤ pointer + s.2.1) :
    s'.1.st = st0 ∧ pathInBounds st0.maxPointer s'.1.minPath
      ∧ 0 ≤ pointer + s'.2.1 := by
  obtain ⟨hQst, hQmin, hQnj⟩ := hQ
  simp only [rollStepRight] at h
  split at h
  · rename_i hrl
    split at h
    · simp only [Option.some.injEq, Prod.mk.injEq] at h
      rw [← h.1]
      exact ⟨hQst, hQmin, hQnj⟩
    · split at h
      · split at h
        · rename_i hv
          rcases Option.map_eq_some'.mp h with ⟨res, hres, heq⟩
          obtain ⟨r2, st3, ok2⟩ := res
          injection heq with h1 h2
          subst h1
          have hKR := rollBuiltRight s.1.st.goal s.1.st.tape s.1.st.maxPointer iMax
            pointer s.2.1 s.2.2 _ _ start _ rfl hv hrl.1 hQnj
          refine ⟨?_, ?_, ?_⟩
          · have hst3 := hrec _ _ _ _ _ _ _ _ hres
            exact (rollAfter_frame s.1 _ (r2, st3, ok2) start hst3).trans hQst
          · apply rollAfter_bounds
            · exact hQmin
            · intro n hn
              have hx := hKR n hn
              rw [hQst] at hx
              exact hx
            · have hchild := hb _ _ _ _ _ _ _ _ hres ?hzc ?hnz0c ?hnz1c
              · have hchild2 : pathInBounds s.1.st.maxPointer r2 := hchild
                rw [hQst] at hchild2
                exact hchild2
              case hzc =>
                intro z hzm
                have hz2 : zerosInBounds s.1.st := by rw [hQst]; exact hz
                exact hz2 z hzm
              case hnz0c => exact hnz0
              case hnz1c =>
                show nextZero ≤ s.1.st.maxPointer
                rw [hQst]
                exact hnz1
          · show (0 : Int) ≤ pointer + (s.2.1 + 1)
            omega
        · simp only [Option.some.injEq, Prod.mk.injEq] at h
          rw [← h.1]
          refine ⟨hQst, hQmin, ?_⟩
          show (0 : Int) ≤ pointer + (s.2.1 + 1)
          omega
      · simp only [Option.some.injEq, Prod.mk.injEq] at h
        rw [← h.1]
        refine ⟨hQst, hQmin, ?_⟩
        show (0 : Int) ≤ pointer + (s.2.1 + 1)
        omega
  · simp only [Option.some.injEq, Prod.mk.injEq] at h
    rw [← h.1]
    exact ⟨hQst, hQmin, hQnj⟩

theorem rollLeft_bounds (rec : RecT) (hrec : FrameRec rec) (hb : BoundsRec rec)
    (acc : SAcc) (cost : Int) (start : Nat)
    (maxCost nextCost iMax pointer pj0 prevZero : Int) (acc' : SAcc)
    (h : rollLeft rec acc cost start maxCost nextCost iMax pointer pj0 prevZero
      = some acc')
    (hz : zerosInBounds acc.st) (hp1 : pointer ≤ acc.st.maxPointer) (hpj0 : 0 ≤ pj0)
    (hpz0 : 0 ≤ prevZero) (hpz1 : prevZero ≤ acc.st.maxPointer)
    (hmin : pathInBounds acc.st.maxPointer acc.minPath) :
    pathInBounds acc.st.maxPointer acc'.minPath := by
  simp only [rollLeft] at h
  rcases Option.map_eq_some'.mp h with ⟨sEnd, hfold, rfl⟩
  have hmain := foldB_pres _ _
    (fun s : SAcc × Int × Int => s.1.st = acc.st
      ∧ pathInBounds acc.st.maxPointer s.1.minPath
      ∧ pointer - s.2.1 ≤ acc.st.maxPointer)
    ?step _ sEnd ?init hfold
  · exact hmain.2.1
  case init =>
    refine ⟨rfl, hmin, ?_⟩
    exact rollExtLeft_le acc.st.tape acc.st.maxPointer pointer pj0
      (pointer - pj0 - prevZero) ((acc.st.goal.length : Int) - start)
      ((acc.st.maxPointer - pointer).toNat + pj0.toNat + 1) (by omega)
  case step =>
    intro s x s2 b hx hPs hfx
    exact rollStepLeft_bounds rec hrec hb cost start maxCost nextCost iMax pointer
      prevZero acc.st hz hpz0 hpz1 s x s2 b hfx hPs

theorem rollRight_bounds (rec : RecT) (hrec : FrameRec rec) (hb : BoundsRec rec)
    (acc : SAcc) (cost : Int) (start : Nat)
    (maxCost nextCost iMax pointer nj0 nextZero : Int) (acc' : SAcc)
    (h : rollRight rec acc cost start maxCost nextCost iMax pointer nj0 nextZero
      = some acc')
    (hz : zerosInBounds acc.st) (hp0 : 0 ≤ pointer) (hnj0 : 0 ≤ nj0)
    (hnz0 : 0 ≤ nextZero) (hnz1 : nextZero ≤ acc.st.maxPointer)
    (hmin : pathInBounds acc.st.maxPointer acc.minPath) :
    pathInBounds acc.st.maxPointer acc'.minPath := by
  simp only [rollRight] at h
  rcases Option.map_eq_some'.mp h with ⟨sEnd, hfold, rfl⟩
  have hmain := foldB_pres _ _
    (fun s : SAcc × Int × Int => s.1.st = acc.st
      ∧ pathInBounds acc.st.maxPointer s.1.minPath
      ∧ 0 ≤ pointer + s.2.1)
    ?step _ sEnd ?init hfold
  · exact hmain.2.1
  case init =>
    refine ⟨rfl, hmin, ?_⟩
    exact rollExtRight_ge acc.st.tape pointer nj0 (nextZero - pointer - nj0)
      ((acc.st.goal.length : Int) - start) (pointer.toNat + nj0.toNat + 1) (by omega)
  case step =>
    intro s x s2 b hx hPs hfx
    exact rollStepRight_bounds rec hrec hb cost start maxCost nextCost iMax pointer
      nextZero acc.st hz hnz0 hnz1 s x s2 b hfx hPs

theorem zipLeft_bounds (rec : RecT) (hrec : FrameRec rec) (hb : BoundsRec rec)
    (acc : SAcc) (cost : Int) (start : Nat) (maxCost nextCost iMax pointer : Int)
    (acc' : SAcc)
    (h : zipLeft rec acc cost start maxCost nextCost iMax pointer = some acc')
    (hz : zerosInBounds acc.st) ( _hp0 : 0 ≤ pointer) (hp1 : pointer ≤ acc.st.maxPointer)
    (hmin : pathInBounds acc.st.maxPointer acc.minPath) :
    pathInBounds acc.st.maxPointer acc'.minPath := by
  simp only [zipLeft] at h
  split at h
  · split at h
    · rename_i hpj0le
      split at h
      · rcases Option.bind_eq_some.mp h with ⟨a1, hf1, h2⟩
        rcases Option.bind_eq_some.mp h2 with ⟨a2, hf2, h3⟩
        have hP1 := foldB_pres _ _
          (fun a : SAcc => a.st = acc.st ∧ pathInBounds acc.st.maxPointer a.minPath)
          ?stepF _ a1 ⟨rfl, hmin⟩ hf1
        case stepF =>
          intro a i a3 b hi hPa hfa
          refine ⟨(zipFarLeft_frame rec hrec _ _ _ _ _ _ _ a i a3 b hfa).trans hPa.1, ?_⟩
          have hbd := zipFarLeft_bounds rec hb _ _ _ _ _ _ _ a i a3 b hfa
            (by rw [hPa.1]; exact hz) ((intRange_mem.mp hi).1)
            (by rw [hPa.1]; exact (zeros_getD_bounds acc.st hz (by omega) _).2)
            (by rw [hPa.1]; exact hPa.2)
          rw [hPa.1] at hbd
          exact hbd
        have hP2 := foldB_pres _ _
          (fun a : SAcc => a.st = acc.st ∧ pathInBounds acc.st.maxPointer a.minPath)
          ?stepN _ a2 hP1 hf2
        case stepN =>
          intro a i a3 b hi hPa hfa
          refine ⟨(zipNearLeft_frame rec hrec _ _ _ _ _ _ _ _ a i a3 b hfa).trans hPa.1,
            ?_⟩
          have hbd := zipNearLeft_bounds rec hb _ _ _ _ _ _ _ _ a i a3 b hfa
            (by rw [hPa.1]; exact hz) ((intRange_mem.mp hi).1)
            ((zeros_getD_bounds acc.st hz (by omega) _).1)
            (by rw [hPa.1]; exact hPa.2)
          rw [hPa.1] at hbd
          exact hbd
        have hroll := rollLeft_bounds rec hrec hb a2 cost start maxCost nextCost iMax
          pointer _ _ acc' h3 (by rw [hP2.1]; exact hz) (by rw [hP2.1]; exact hp1)
          (zipScanLeft_nonneg acc.st.tape pointer (pointer.toNat + 1))
          ((zeros_getD_bounds acc.st hz (by omega) _).1)
          (by rw [hP2.1]; exact (zeros_getD_bounds acc.st hz (by omega) _).2)
          (by rw [hP2.1]; exact hP2.2)
        rw [hP2.1] at hroll
        exact hroll
      · simp only [Option.some.injEq] at h; rw [← h]; exact hmin
    · simp only [Option.some.injEq] at h; rw [← h]; exact hmin
  · simp only [Option.some.injEq] at h; rw [← h]; exact hmin

theorem zipRight_bounds (rec : RecT) (hrec : FrameRec rec) (hb : BoundsRec rec)
    (acc : SAcc) (cost : Int) (start : Nat) (maxCost nextCost iMax pointer : Int)
    (acc' : SAcc)
    (h : zipRight rec acc cost start maxCost nextCost iMax pointer = some acc')
    (hz : zerosInBounds acc.st) (hp0 : 0 ≤ pointer) (hp1 : pointer ≤ acc.st.maxPointer)
    (hmin : pathInBounds acc.st.maxPointer acc.minPath) :
    pathInBounds acc.st.maxPointer acc'.minPath := by
  simp only [zipRight] at h
  split at h
  · split at h
    · rename_i hnj0le
      split at h
      · rcases Option.bind_eq_some.mp h with ⟨a1, hf1, h2⟩
        rcases Option.bind_eq_some.mp h2 with ⟨a2, hf2, h3⟩
        have hP1 := foldB_pres _ _
          (fun a : SAcc => a.st = acc.st ∧ pathInBounds acc.st.maxPointer a.minPath)
          ?stepF _ a1 ⟨rfl, hmin⟩ hf1
        case stepF =>
          intro a i a3 b hi hPa hfa
          refine ⟨(zipFarRight_frame rec hrec _ _ _ _ _ _ _ a i a3 b hfa).trans hPa.1,
            ?_⟩
          have hbd := zipFarRight_bounds rec hb _ _ _ _ _ _ _ a i a3 b hfa
            (by rw [hPa.1]; exact hz) ((intRange_mem.mp hi).1)
            ((zeros_getD_bounds acc.st hz (by omega) _).1)
            (by rw [hPa.1]; exact hPa.2)
          rw [hPa.1] at hbd
          exact hbd
        have hP2 := foldB_pres _ _
          (fun a : SAcc => a.st = acc.st ∧ pathInBounds acc.st.maxPointer a.minPath)
          ?stepN _ a2 hP1 hf2
        case stepN =>
          intro a i a3 b hi hPa hfa
          refine ⟨(zipNearRight_frame rec hrec _ _ _ _ _ _ _ _ a i a3 b hfa).trans hPa.1,
            ?_⟩
          have hbd := zipNearRight_bounds rec hb _ _ _ _ _ _ _ _ a i a3 b hfa
            (by rw [hPa.1]; exact hz) ((intRange_mem.mp hi).1)
            (by rw [hPa.1]; exact (zeros_getD_bounds acc.st hz (by omega) _).2)
            (by rw [hPa.1]; exact hPa.2)
          rw [hPa.1] at hbd
          exact hbd
        have hroll := rollRight_bounds rec hrec hb a2 cost start maxCost nextCost iMax
          pointer _ _ acc' h3 (by rw [hP2.1]; exact hz) hp0
          (zipScanRight_nonneg acc.st.tape acc.st.maxPointer pointer
            ((acc.st.maxPointer - pointer).toNat + 1))
          ((zeros_getD_bounds acc.st hz (by omega) _).1)
          (by rw [hP2.1]; exact (zeros_getD_bounds acc.st hz (by omega) _).2)
          (by rw [hP2.1]; exact hP2.2)
        rw [hP2.1] at hroll
        exact hroll
      · simp only [Option.some.injEq] at h; rw [← h]; exact hmin
    · simp only [Option.some.injEq] at h; rw [← h]; exact hmin
  · rename_i hcon
    exact absurd hp1 hcon

theorem exhaustiveF_bounds : ∀ fuel : Nat, BoundsRec (exhaustiveF fuel) := by
  intro fuel
  induction fuel with
  | zero =>
    intro st cost start pointer maxCost r st' ok h
    cases h
  | succ fuel ih =>
    intro st cost start pointer maxCost r st' ok h hz hp0 hp1
    simp only [exhaustiveF] at h
    split at h
    · simp only [Option.some.injEq, Prod.mk.injEq] at h
      rw [← h.1]
      intro path hpath n hn
      cases hpath
      cases hn
    · split at h
      · simp only [Option.some.injEq, Prod.mk.injEq] at h
        rw [← h.1]
        intro path hpath
        cases hpath
      · rcases Option.bind_eq_some.mp h with ⟨a1, h1, hb1⟩
        rcases Option.bind_eq_some.mp hb1 with ⟨a2, h2, hb2⟩
        rcases Option.bind_eq_some.mp hb2 with ⟨a3, h3, hb3⟩
        rcases Option.bind_eq_some.mp hb3 with ⟨a4, h4, hb4⟩
        rcases Option.bind_eq_some.mp hb4 with ⟨a5, h5, hb5⟩
        have hfr := exhaustiveF_frame fuel
        have ha1 : a1.st = st := stayMove_frame _ hfr _ _ _ _ _ _ _ _ h1
        have ha2 : a2.st = st := (leftMove_frame _ hfr _ _ _ _ _ _ _ _ h2).trans ha1
        have ha3 : a3.st = st := (rightMove_frame _ hfr _ _ _ _ _ _ _ _ h3).trans ha2
        have ha4 : a4.st = st := (zipLeft_frame _ hfr _ _ _ _ _ _ _ _ h4).trans ha3
        have hm1 := stayMove_bounds _ ih ⟨st, none, true⟩ cost start _ _ _ pointer
          a1 h1 hz hp1 (fun path hpath => by cases hpath)
        have hm2 := leftMove_bounds _ hfr ih a1 cost start _ _ _ pointer a2 h2
          (by rw [ha1]; exact hz) (by rw [ha1]; exact hp1) (by rw [ha1]; exact hm1)
        rw [ha1] at hm2
        have hm3 := rightMove_bounds _ hfr ih a2 cost start _ _ _ pointer a3 h3
          (by rw [ha2]; exact hz) hp0 (by rw [ha2]; exact hm2)
        rw [ha2] at hm3
        have hm4 := zipLeft_bounds _ hfr ih a3 cost start _ _ _ pointer a4 h4
          (by rw [ha3]; exact hz) hp0 (by rw [ha3]; exact hp1) (by rw [ha3]; exact hm3)
        rw [ha3] at hm4
        have hm5 := zipRight_bounds _ hfr ih a4 cost start _ _ _ pointer a5 h5
          (by rw [ha4]; exact hz) hp0 (by rw [ha4]; exact hp1) (by rw [ha4]; exact hm4)
        rw [ha4] at hm5
        simp only [Option.some.injEq, Prod.mk.injEq] at hb5
        rw [← hb5.1]
        exact hm5

/-- C7: given the solver-entry precondition 0 ≤ pointer ≤ max_pointer, every
node appearing in any path returned by the exhaustive search — Solver::solve
run on the state built by Solver::new — has 0 ≤ pointer ≤ max_pointer. -/
theorem claim_C7_pointer_bounds (goal tape : List Nat)
    (pointer maxPointer maxNodeCost : Int) (uniqueCells : Bool) (maxCost : Int)
    (path : List BNode) (hp0 : 0 ≤ pointer) (hp1 : pointer ≤ maxPointer)
    (h : (SolverSt.new goal tape pointer maxPointer maxNodeCost uniqueCells).solve
      maxCost = some path) :
    ∀ n ∈ path, 0 ≤ n.pointer ∧ n.pointer ≤ maxPointer := by
  unfold SolverSt.solve at h
  cases hex : exhaustiveF
      ((SolverSt.new goal tape pointer maxPointer maxNodeCost uniqueCells).goal.length
        + 1)
      (SolverSt.new goal tape pointer maxPointer maxNodeCost uniqueCells) 0 0
      (SolverSt.new goal tape pointer maxPointer maxNodeCost uniqueCells).pointer
      (maxCost
        - (SolverSt.new goal tape pointer maxPointer maxNodeCost uniqueCells).minCost)
      with
  | none =>
    rw [hex] at h
    have h2 : (none : Option (List BNode)) = some path := h
    cases h2
  | some t =>
    obtain ⟨r, st2, ok⟩ := t
    rw [hex] at h
    have hr : r = some path := h
    have hz0 : zerosInBounds
        (SolverSt.new goal tape pointer maxPointer maxNodeCost uniqueCells) := by
      intro z hzm
      have hm := (zerosOf_mem tape maxPointer z).mp hzm
      exact ⟨hm.1, hm.2.1⟩
    have hbd := exhaustiveF_bounds _ _ _ _ _ _ r st2 ok hex hz0 hp0 hp1
    intro n hn
    exact hbd path hr n hn

theorem claim_C7_pointer_bounds_witness :
    (0 : Int) ≤ 1 ∧ (1 : Int) ≤ 1 ∧
    (SolverSt.new [7] [0, 5] 1 1 20 false).solve 40 = some [⟨1, 3, false⟩] ∧
    ∀ n ∈ ([⟨1, 3, false⟩] : List BNode), 0 ≤ n.pointer ∧ n.pointer ≤ 1 :=
  ⟨by decide, by decide, by decide,
   claim_C7_pointer_bounds [7] [0, 5] 1 1 20 false 40 [⟨1, 3, false⟩]
     (by decide) (by decide) (by decide)⟩

end BfCrunch
